import Mathlib

/-!
Verification of the attack-graph-reconstruction core (log ingestion, forward
chaining inference with temporal constraints, missing-step reconstruction,
narrative generation) against its natural-language specification.

The Python source keeps its mutable state in module-level dictionaries, sets
and lists (`state.py`); here that state is an explicit `St` record threaded
through the operations.  Python dictionaries are modelled as insertion-ordered
association lists (`List (String × α)`) whose update-or-append operation
`dinsert` mirrors `d[k] = v`, so that `list(d.keys())[-1]` is the last list
entry.  Confidences are real numbers (the source uses floats with fractional
exponents, e.g. `0.5 ** (age / 3600)`, modelled exactly by `Real.rpow`).
Wall-clock time (`state.now()`, `int(time.time())`) is a parameter `now : ℤ`;
a single run observes one value.  Python's `ZeroDivisionError` is modelled by
`Except String`; the graph `G` (display only, never read by the reasoning
code) is omitted.
-/

abbrev FactId := String

/-- One parsed log record.  The source reads JSONL dictionaries; the fields
used by signal extraction are `event_type`, `timestamp`, `host`, `src`,
`dst`, `privilege`.  A field that is absent is modelled as `""` (which is
falsy in Python, like a missing key in the `.get` calls). -/
structure LogEntry where
  event_type : String
  timestamp : ℤ
  host : String := ""
  src : String := ""
  dst : String := ""
  privilege : String := ""
deriving DecidableEq

/-- The `evidence` field of a `state_info` entry: a list of logs for observed
facts, the rule name plus the five recorded penalty values for inferred facts
(`derived_from_rule`, `time_gap_penalty`, `time_gap_violation`,
`absence_penalty`, `time_decay`, `negative_penalty`), and the reason plus
mechanism for hypothetical facts. -/
inductive Evidence where
  | logs (ls : List LogEntry)
  | derived (rule : String) (time_gap_penalty : ℝ) (time_gap_violation : Option String)
      (absence_penalty : ℝ) (time_decay : ℝ) (negative_penalty : ℝ)
  | hyp (reason : String) (mechanism : String)

/-- A `state_info` dictionary entry (minus the redundant `confidence` copy,
which duplicates `state_confidence`). -/
structure FactInfo where
  origin : String
  evidence : Evidence
  event_id : ℕ
  time : ℤ

/-- An `applied_rules` list entry. -/
structure AppliedRule where
  name : String
  tactic : String
  confidence : ℝ
  event_id : ℕ

/-- A rule record from `rules.py`: `{"name": …, "pre": {...}, "post": {...},
"confidence": …, "tactic": …}`, with the optional `max_time_gap` used by
`calculate_time_gap_penalty` (`rule.get("max_time_gap", float('inf'))`;
`none` models the absent key / infinite threshold). -/
structure Rule where
  name : String
  pre : List FactId
  post : List FactId
  confidence : ℝ
  tactic : String
  max_time_gap : Option ℤ := none

/-- The global mutable state of `state.py` (graph omitted): `state_info`,
`state_confidence`, `current_states`, `observed_logs`, `negative_evidence`,
`applied_rules`, and the module-level `event_counter` of `log_parser.py`. -/
structure St where
  state_info : List (FactId × FactInfo)
  state_confidence : List (FactId × ℝ)
  current_states : List FactId
  observed_logs : List LogEntry
  negative_evidence : List (FactId × List LogEntry)
  applied_rules : List AppliedRule
  event_counter : ℕ

/-- The state produced by `reset_state()` / a fresh process. -/
def emptySt : St :=
  { state_info := [], state_confidence := [], current_states := [],
    observed_logs := [], negative_evidence := [], applied_rules := [],
    event_counter := 0 }

instance : Inhabited St := ⟨emptySt⟩

/-- Python dictionary assignment `d[k] = v`: replace in place if the key is
present, append otherwise (dictionaries preserve the insertion position of an
overwritten key). -/
def dinsert {α : Type} (m : List (FactId × α)) (k : FactId) (v : α) : List (FactId × α) :=
  if m.any (fun kv => kv.1 == k) then
    m.map (fun kv => if kv.1 == k then (k, v) else kv)
  else m ++ [(k, v)]

/-- Python set `add`: append only if absent (membership is all that matters). -/
def sadd (s : List FactId) (x : FactId) : List FactId :=
  if s.contains x then s else s ++ [x]

/-- `min` over a nonempty Python list (`[]` is unreachable at every call site,
guarded by the precondition-satisfaction checks). -/
def listMin : List ℝ → ℝ
  | [] => 0
  | x :: xs => xs.foldl min x

/-- `max` over a nonempty Python list. -/
def listMax : List ℤ → ℤ
  | [] => 0
  | x :: xs => xs.foldl max x

/-- Python `str.split(c)` on the character level. -/
def splitChunks (c : Char) : List Char → List (List Char)
  | [] => [[]]
  | a :: rest =>
    let r := splitChunks c rest
    if a == c then [] :: r
    else
      match r with
      | [] => [[a]]
      | h :: t => (a :: h) :: t

/-- Python `state_name.split(":")` (always nonempty). -/
def pySplit (s : String) (c : Char) : List String :=
  (splitChunks c s.data).map String.mk

/-- `state_name.split(":")[0]`. -/
def firstChunk (s : String) : String :=
  (pySplit s ':').headD ""

/-- `state_name.split(":")[1] if ":" in state_name else None`. -/
def secondChunk (s : String) : Option String :=
  if s.data.contains ':' then (pySplit s ':').getD 1 "" else none

/-- Python f-string interpolation of a possibly-`None` host. -/
def hostStr : Option String → String
  | some h => h
  | none => "None"

/-- Python `needle in hay` substring test (prefix at some position). -/
def prefixOfL : List Char → List Char → Bool
  | [], _ => true
  | _ :: _, [] => false
  | a :: as, b :: bs => a == b && prefixOfL as bs

/-- Auxiliary scan for `pySubstr`. -/
def infixOfL (n : List Char) : List Char → Bool
  | [] => prefixOfL n []
  | b :: bs => prefixOfL n (b :: bs) || infixOfL n bs

/-- Python `needle in hay` on strings. -/
def pySubstr (needle hay : String) : Bool :=
  infixOfL needle.data hay.data

/-! ## log_parser.py -/

/-- `extract_signals(log)`: positive fact identifiers extracted from one log
record. -/
def extract_signals (log : LogEntry) : List FactId :=
  (if log.event_type == "login" && log.privilege == "user" then
    ["user_access:" ++ log.host] else []) ++
  (if log.event_type == "sudo" then ["admin_access:" ++ log.host] else []) ++
  (if log.event_type == "lsass_access" then ["credential_dumped:" ++ log.host] else []) ++
  (if log.event_type == "smb_session" then
    ["network_access:" ++ log.src ++ "_to_" ++ log.dst] else [])

/-- `extract_negative_signals(log)`: fact identifiers contradicted by one log
record (`if src and dst` is Python truthiness, i.e. both nonempty). -/
def extract_negative_signals (log : LogEntry) : List FactId :=
  (if log.event_type == "login_failed" then ["user_access:" ++ log.host] else []) ++
  (if log.event_type == "logout" then
    ["user_access:" ++ log.host, "admin_access:" ++ log.host] else []) ++
  (if log.event_type == "edr_block" then ["credential_dumped:" ++ log.host] else []) ++
  (if log.event_type == "firewall_block" && !(log.src == "") && !(log.dst == "") then
    ["network_access:" ++ log.src ++ "_to_" ++ log.dst] else [])

/-- `negative_evidence[neg_state].append(log)` with default `[]`. -/
def appendNeg (m : List (FactId × List LogEntry)) (k : FactId) (log : LogEntry) :
    List (FactId × List LogEntry) :=
  match m.lookup k with
  | some ls => dinsert m k (ls ++ [log])
  | none => m ++ [(k, [log])]

/-- The body of the `ingest_logs` loop for a single log record. -/
def ingestLog (st : St) (log : LogEntry) : St :=
  let st := { st with observed_logs := st.observed_logs ++ [log] }
  let st := (extract_negative_signals log).foldl
    (fun st n => { st with negative_evidence := appendNeg st.negative_evidence n log }) st
  (extract_signals log).foldl
    (fun st s =>
      if (st.state_info.lookup s).isSome then st
      else
        { st with
          event_counter := st.event_counter + 1,
          state_info := st.state_info ++
            [(s, { origin := "log", evidence := .logs [log],
                   event_id := st.event_counter + 1, time := log.timestamp })],
          state_confidence := dinsert st.state_confidence s 1.0,
          current_states := sadd st.current_states s }) st

/-- `ingest_logs(path)`, with the file contents already parsed into a batch. -/
def ingest_logs (batch : List LogEntry) (st : St) : St :=
  batch.foldl ingestLog st

/-! ## inference.py: confidence factors -/

/-- `EXPECTED_EVIDENCE`. -/
def EXPECTED_EVIDENCE : List (String × List String) :=
  [("credential_dumped", ["lsass_access", "proc_dump"]),
   ("admin_access", ["sudo", "privilege_escalation"]),
   ("network_access", ["smb_session", "rdp_session"])]

/-- `check_absence_of_evidence(state_name, state_time)` (the `state_time`
parameter is unused in the source body too; `observed_logs` is passed
explicitly instead of read from the module). -/
def check_absence_of_evidence (state_name : String) (state_time : ℤ)
    (observed_logs : List LogEntry) : ℝ :=
  let _ := state_time
  let state_type := firstChunk state_name
  match EXPECTED_EVIDENCE.lookup state_type with
  | none => 1.0
  | some expected_types =>
    let host := secondChunk state_name
    let found_evidence := observed_logs.any (fun log =>
      expected_types.contains log.event_type &&
      (match host with
       | some h => !(h == "") && log.host == h
       | none => false))
    if found_evidence then 1.0 else 0.5

/-- `calculate_time_decay(state_time)`: `max(0.5 ** (age / 3600), 0.3)` where
`age = now() - state_time`. -/
noncomputable def calculate_time_decay (now state_time : ℤ) : ℝ :=
  max ((0.5 : ℝ) ^ (((now - state_time : ℤ) : ℝ) / 3600)) 0.3

/-- `apply_negative_evidence_penalty(state_name)`:
`0.8 ** len(negative_evidence[state_name])`, `1.0` if unrecorded. -/
def apply_negative_evidence_penalty (negative_evidence : List (FactId × List LogEntry))
    (state_name : FactId) : ℝ :=
  match negative_evidence.lookup state_name with
  | some ls => (0.8 : ℝ) ^ ls.length
  | none => 1.0

/-- The precondition-time collection loop of `check_temporal_causality`:
`none` when some precondition is missing from `state_info`. -/
def collectTimes (info : List (FactId × FactInfo)) : List FactId → Option (List ℤ)
  | [] => some []
  | p :: ps =>
    match info.lookup p with
    | some fi => (collectTimes info ps).map (fi.time :: ·)
    | none => none

/-- `check_temporal_causality(rule, precondition_states)`: `(is_valid,
latest_precondition_time)`. -/
def check_temporal_causality (info : List (FactId × FactInfo)) (pre : List FactId) :
    Bool × ℤ :=
  match collectTimes info pre with
  | none => (false, 0)
  | some [] => (false, 0)
  | some (t :: ts) => (true, ts.foldl max t)

/-- `calculate_time_gap_penalty(rule, precondition_time, current_time)`.
Returns `(penalty, violation_type)`.  With no `max_time_gap` the Python float
arithmetic gives `time_gap > inf := False` and `1.0 - 0.3*gap/inf == 1.0`,
i.e. exactly `(1.0, None)` for every nonnegative gap.  With `max_time_gap = 0`
both remaining branches divide by the threshold, raising `ZeroDivisionError`
(`.error`): there is no explicit guard in the source. -/
noncomputable def calculate_time_gap_penalty (rule : Rule) (precondition_time current_time : ℤ) :
    Except String (ℝ × Option String) :=
  let time_gap := current_time - precondition_time
  if time_gap < 0 then .ok (0.0, some "causality_violation")
  else
    match rule.max_time_gap with
    | none => .ok (1.0, none)
    | some max_gap =>
      if max_gap < time_gap then
        if max_gap = 0 then .error "ZeroDivisionError"
        else
          .ok (max ((0.5 : ℝ) ^ (((time_gap - max_gap : ℤ) : ℝ) / (max_gap : ℝ))) 0.1,
               some "time_gap_exceeded")
      else
        if max_gap = 0 then .error "ZeroDivisionError"
        else .ok (max (1.0 - 0.3 * ((time_gap : ℤ) : ℝ) / (max_gap : ℝ)) 0.7, none)

/-! ## inference.py: run_inference -/

/-- The `for post in rule["post"]` loop body of `run_inference`, processing
the postconditions in order and threading the mutated state and the `changed`
flag.  The `causality_violation` branch (confidence 0.01, fact suppressed) is
kept although it is unreachable from `fireRule`, where
`current_time = max(precondition_time, now) ≥ precondition_time`. -/
noncomputable def firePosts (now : ℤ) (rule : Rule) (precondition_time inferred_time : ℤ)
    (event_counter : ℕ) : List FactId → St → Bool → Except String (St × Bool)
  | [], st, changed => .ok (st, changed)
  | post :: rest, st, changed =>
    if st.current_states.contains post then
      firePosts now rule precondition_time inferred_time event_counter rest st changed
    else
      let st₁ := { st with current_states := st.current_states ++ [post] }
      let parent_confidences := rule.pre.map
        (fun p => (st₁.state_confidence.lookup p).getD 0)
      let base_confidence := min rule.confidence (listMin parent_confidences)
      match calculate_time_gap_penalty rule precondition_time inferred_time with
      | .error e => .error e
      | .ok (time_gap_penalty, violation_type) =>
        if violation_type = some "causality_violation" then
          firePosts now rule precondition_time inferred_time event_counter rest
            { st₁ with state_confidence := dinsert st₁.state_confidence post 0.01 } changed
        else
          let absence_penalty := check_absence_of_evidence post inferred_time st₁.observed_logs
          let time_decay := calculate_time_decay now inferred_time
          let negative_penalty := apply_negative_evidence_penalty st₁.negative_evidence post
          let calculated_confidence :=
            base_confidence * time_gap_penalty * absence_penalty * time_decay * negative_penalty
          firePosts now rule precondition_time inferred_time event_counter rest
            { st₁ with
              state_confidence := dinsert st₁.state_confidence post calculated_confidence,
              state_info := dinsert st₁.state_info post
                { origin := "inferred",
                  evidence := .derived rule.name time_gap_penalty violation_type
                    absence_penalty time_decay negative_penalty,
                  event_id := event_counter, time := inferred_time } } true

/-- One rule of the `for rule in rules` loop of `run_inference`: skip if
already applied, if the precondition set is not satisfied, if temporal
causality fails, or if a postcondition already exists strictly before the
latest precondition; otherwise fire the postconditions and append the
applied-rule record. -/
noncomputable def fireRule (now : ℤ) (rule : Rule) (st : St) : Except String (St × Bool) :=
  if (st.applied_rules.map (·.name)).contains rule.name then .ok (st, false)
  else if !(rule.pre.all (fun p => st.current_states.contains p)) then .ok (st, false)
  else
    match check_temporal_causality st.state_info rule.pre with
    | (false, _) => .ok (st, false)
    | (true, precondition_time) =>
      let inferred_time := max precondition_time now
      if rule.post.any (fun post =>
          match st.state_info.lookup post with
          | some fi => decide (fi.time < precondition_time)
          | none => false) then .ok (st, false)
      else
        let event_counter :=
          match st.state_info.getLast? with
          | some kv => kv.2.event_id + 1
          | none => 1
        match firePosts now rule precondition_time inferred_time event_counter
            rule.post st false with
        | .error e => .error e
        | .ok (st', added) =>
          .ok ({ st' with applied_rules := st'.applied_rules ++
                  [{ name := rule.name, tactic := rule.tactic,
                     confidence := rule.confidence, event_id := event_counter }] }, added)

/-- One full pass of the `while changed` loop (the `for rule in rules` loop),
accumulating the `changed` flag. -/
noncomputable def passRules (now : ℤ) : List Rule → St → Bool → Except String (St × Bool)
  | [], st, changed => .ok (st, changed)
  | r :: rs, st, changed =>
    match fireRule now r st with
    | .error e => .error e
    | .ok (st', added) => passRules now rs st' (changed || added)

/-- Number of rule postconditions not yet current: a strict upper bound on the
number of passes that can still report `changed`. -/
def missingCount (rules : List Rule) (st : St) : ℕ :=
  (((rules.map Rule.post).flatten.dedup).filter
    (fun p => !st.current_states.contains p)).length

/-- The `while changed` loop, fuelled.  `run_inference` supplies enough fuel
(each changed pass materializes at least one new postcondition), so the
`.error "fuel"` branch is unreachable there. -/
noncomputable def runPasses (now : ℤ) (rules : List Rule) : ℕ → St → Except String St
  | 0, _ => .error "fuel"
  | fuel + 1, st =>
    match passRules now rules st false with
    | .error e => .error e
    | .ok (st', changed) => if changed then runPasses now rules fuel st' else .ok st'

/-- `run_inference(rules)`. -/
noncomputable def run_inference (now : ℤ) (rules : List Rule) (st : St) : Except String St :=
  runPasses now rules (missingCount rules st + 1) st

/-! ## inference.py: infer_missing_steps -/

/-- A `hypothetical_inferences` entry. -/
structure HypWip where
  state : FactId
  reason : String
  confidence : ℝ
  mechanism : String

/-- The gap-scanning loop of `infer_missing_steps` over `state_info` (in
insertion order), collecting the hypothetical inferences for observed facts:
the precursor pattern (`admin_access` without `user_access`) and the
lateral-movement pattern (`user_access` on a non-initial host without both a
`network_access:A_to_host` substring match and a `credential_dumped`
substring match among current states). -/
def scanGaps (current : List FactId) : List (FactId × FactInfo) → List HypWip
  | [] => []
  | (state_name, info) :: rest =>
    (if info.origin == "log" then
      let state_type := firstChunk state_name
      let host := secondChunk state_name
      (if state_type == "admin_access" then
        let user_state := "user_access:" ++ hostStr host
        if current.contains user_state then []
        else [{ state := user_state, reason := "Required for observed " ++ state_name,
                confidence := 0.3, mechanism := "unknown" }]
      else []) ++
      (if state_type == "user_access" && !(host == some "A") then
        let has_network_access := current.any
          (fun e => pySubstr ("network_access:A_to_" ++ hostStr host) e)
        let has_credentials := current.any (fun e => pySubstr "credential_dumped" e)
        if has_network_access && has_credentials then []
        else [{ state := "lateral_movement:unknown_to_" ++ hostStr host,
                reason := "Necessary to explain " ++ state_name,
                confidence := 0.25, mechanism := "unknown (no evidence found)" }]
      else [])
    else []) ++ scanGaps current rest

/-- The application loop of `infer_missing_steps` for one hypothesis: add to
`current_states` if absent, then overwrite confidence and `state_info` (with
`event_id = len(state_info) + 1` computed before the assignment). -/
def applyHyp (now : ℤ) (st : St) (h : HypWip) : St :=
  { st with
    current_states := sadd st.current_states h.state,
    state_confidence := dinsert st.state_confidence h.state h.confidence,
    state_info := dinsert st.state_info h.state
      { origin := "hypothetical", evidence := .hyp h.reason h.mechanism,
        event_id := st.state_info.length + 1, time := now } }

/-- `infer_missing_steps(rules)` (the `rules` parameter is unused in the
source body as well); returns the new state and
`len(hypothetical_inferences)`. -/
def infer_missing_steps (now : ℤ) (rules : List Rule) (st : St) : St × ℕ :=
  let _ := rules
  let hyps := scanGaps st.current_states st.state_info
  (hyps.foldl (applyHyp now) st, hyps.length)

/-! ## narratives.py -/

/-- An `AttackNarrative` object after `calculate_score` ran and the caller
overwrote `explanation`. -/
structure AttackNarrative where
  id : ℕ
  rules_applied : List AppliedRule
  states : List FactId
  confidences : List (FactId × ℝ)
  score : ℝ
  explanation : String

/-- `state_info.get(s, {}).get('origin')` compared against a string: a
missing fact yields `""`, which matches no origin. -/
def originOf (info : List (FactId × FactInfo)) (s : FactId) : String :=
  match info.lookup s with
  | some fi => fi.origin
  | none => ""

/-- `AttackNarrative.calculate_score`: `0` for an empty state set, otherwise
the weighted sum of mean confidence, observed coverage (denominator floored
at 1), the parsimony penalty and the hypothetical penalty.  (When
`confidences` is empty but `states` is not, the Python source would raise
`ZeroDivisionError`; every caller passes confidences keyed by the narrative's
states, and Lean's `x / 0 = 0` convention marks the branch.) -/
noncomputable def calculate_score (info : List (FactId × FactInfo))
    (rules_applied : List AppliedRule) (states : List FactId)
    (confidences : List (FactId × ℝ)) : ℝ :=
  if states.isEmpty then 0
  else
    let avg_confidence := (confidences.map (·.2)).sum / (confidences.length : ℝ)
    let observed := (states.filter (fun s => originOf info s == "log")).length
    let hypothetical := (states.filter (fun s => originOf info s == "hypothetical")).length
    let complexity_penalty := (1 : ℝ) / (1 + (rules_applied.length : ℝ) * 0.1)
    let hypothetical_penalty := (0.8 : ℝ) ^ hypothetical
    let coverage := (observed : ℝ) /
      ((max ((info.filter (fun kv => kv.2.origin == "log")).length) 1 : ℕ) : ℝ)
    avg_confidence * 0.4 + coverage * 0.3 + complexity_penalty * 0.2 +
      hypothetical_penalty * 0.1

/-- Build one narrative (constructor followed by the caller's `explanation`
overwrite). -/
noncomputable def mkNarrative (info : List (FactId × FactInfo)) (nid : ℕ)
    (rules_applied : List AppliedRule) (states : List FactId)
    (confidences : List (FactId × ℝ)) (explanation : String) : AttackNarrative :=
  { id := nid, rules_applied := rules_applied, states := states,
    confidences := confidences,
    score := calculate_score info rules_applied states confidences,
    explanation := explanation }

/-- Stable insertion of a narrative into a list already sorted by descending
score: placed after every element with a score `≥` its own. -/
noncomputable def insertDesc (a : AttackNarrative) : List AttackNarrative → List AttackNarrative
  | [] => [a]
  | b :: bs => if b.score < a.score then a :: b :: bs else b :: insertDesc a bs

/-- Python `sorted(narratives)` with `__lt__` comparing scores downward: the
stable sort by descending score, ties kept in list (insertion) order. -/
noncomputable def sortDesc (l : List AttackNarrative) : List AttackNarrative :=
  l.foldl (fun acc a => insertDesc a acc) []

/-- `generate_narrative_variants(rules, max_variants=5)` over the current
state snapshot: the five-candidate catalogue, sorted and truncated. -/
noncomputable def generate_narrative_variants (st : St) (rules : List Rule)
    (max_variants : ℕ) : List AttackNarrative :=
  let _ := rules
  let narrative_1 := mkNarrative st.state_info 1 st.applied_rules
    (st.state_info.map (·.1)) st.state_confidence
    "Full inference chain (all rules applied)"
  let non_hypothetical_states :=
    (st.state_info.filter (fun kv => !(kv.2.origin == "hypothetical"))).map (·.1)
  let narrative_2 := mkNarrative st.state_info 2 st.applied_rules
    non_hypothetical_states
    (st.state_confidence.filter (fun kv => non_hypothetical_states.contains kv.1))
    "Conservative (no hypothetical steps)"
  let high_conf := st.state_confidence.filter (fun kv => decide ((0.5 : ℝ) < kv.2))
  let narrative_3 := mkNarrative st.state_info 3
    (st.applied_rules.filter (fun r => decide ((0.5 : ℝ) < r.confidence)))
    (high_conf.map (·.1)) high_conf
    "High-confidence only (conf > 0.5)"
  let direct_states := st.state_info.filterMap (fun kv =>
    if kv.2.origin == "log" then some kv.1
    else if kv.2.origin == "inferred" then
      match kv.2.evidence with
      | .derived rn _ _ _ _ _ =>
        if !(rn == "") && decide ((0.3 : ℝ) < (st.state_confidence.lookup kv.1).getD 0) then
          some kv.1
        else none
      | _ => none
    else none)
  let narrative_4 := mkNarrative st.state_info 4 (st.applied_rules.take 2)
    direct_states
    (direct_states.filterMap (fun s => (st.state_confidence.lookup s).map (fun c => (s, c))))
    "Observed + direct inferences only"
  let observed_only := (st.state_info.filter (fun kv => kv.2.origin == "log")).map (·.1)
  let narrative_5 := mkNarrative st.state_info 5 []
    observed_only
    (observed_only.filterMap (fun s => (st.state_confidence.lookup s).map (fun c => (s, c))))
    "Minimal (observed evidence only)"
  (sortDesc [narrative_1, narrative_2, narrative_3, narrative_4, narrative_5]).take
    max_variants

/-- Narrative score as the specification words it:
`0.4·meanConfidence + 0.3·coverage + 0.2·parsimony + 0.1·hypotheticalPenalty`
with the mean taken over the narrative's facts (their confidences in the
store), coverage the fraction of the store's observed facts included,
`parsimony = 1/(1+0.1·ruleCount)` and `hypotheticalPenalty = 0.8^(count of
hypothetical facts in the narrative)`. -/
noncomputable def specScore (st : St) (n : AttackNarrative) : ℝ :=
  0.4 * ((n.states.map (fun s => (st.state_confidence.lookup s).getD 0)).sum /
          (n.states.length : ℝ)) +
  0.3 * (((n.states.filter (fun s => originOf st.state_info s == "log")).length : ℝ) /
          (((st.state_info.filter (fun kv => kv.2.origin == "log")).length : ℕ) : ℝ)) +
  0.2 * ((1 : ℝ) / (1 + 0.1 * (n.rules_applied.length : ℝ))) +
  0.1 * (0.8 : ℝ) ^
    (n.states.filter (fun s => originOf st.state_info s == "hypothetical")).length

/-- The order `generate_narrative_variants` returns narratives in: scores
descending, and a score tie keeps catalogue (insertion) order, which the
catalogue identifiers `1..5` record. -/
def ScoreOrder (a b : AttackNarrative) : Prop :=
  b.score ≤ a.score ∧ (a.score ≤ b.score → a.id < b.id)

/-! ## Store well-formedness, persistence and run invariants -/

/-- Keys of an association list. -/
def keysOf {α : Type} (m : List (FactId × α)) : List FactId := m.map Prod.fst

/-- Store well-formedness, maintained by every operation: the dictionaries
have unique keys (Python dicts guarantee this), every known fact is current,
every current fact has a `state_info` entry and a confidence, and
confidences are only stored for known facts. -/
def WF (st : St) : Prop :=
  (keysOf st.state_info).Nodup ∧
  (keysOf st.state_confidence).Nodup ∧
  (∀ kv ∈ st.state_info, kv.1 ∈ st.current_states) ∧
  (∀ s ∈ st.current_states, (st.state_info.lookup s).isSome = true) ∧
  (∀ s ∈ st.current_states, (st.state_confidence.lookup s).isSome = true) ∧
  (∀ kv ∈ st.state_confidence, (st.state_info.lookup kv.1).isSome = true)

/-- What a successful inference step can only extend: the log and
negative-evidence stores are untouched, existing dictionary entries keep
their values, current states and applied-rule names persist. -/
def Persist (a b : St) : Prop :=
  b.observed_logs = a.observed_logs ∧
  b.negative_evidence = a.negative_evidence ∧
  (∀ k v, a.state_info.lookup k = some v → b.state_info.lookup k = some v) ∧
  (∀ k v, a.state_confidence.lookup k = some v → b.state_confidence.lookup k = some v) ∧
  (∀ s ∈ a.current_states, s ∈ b.current_states) ∧
  (∀ n ∈ a.applied_rules.map AppliedRule.name, n ∈ b.applied_rules.map AppliedRule.name)

/-- Everything except `applied_rules` coincides (what a pass that reports no
change leaves intact). -/
def CoreEq (a b : St) : Prop :=
  b.state_info = a.state_info ∧
  b.state_confidence = a.state_confidence ∧
  b.current_states = a.current_states ∧
  b.observed_logs = a.observed_logs ∧
  b.negative_evidence = a.negative_evidence ∧
  b.event_counter = a.event_counter

/-- The C2 contract for one inferred fact `s` with info `fi` in store `st`:
its provenance names a rule of the run whose preconditions are all known, and
its stored confidence is `min(rule.confidence, min parent confidence)`
multiplied by the recorded time-gap, absence, decay and negative factors,
each of which equals the corresponding source factor function evaluated on
the store. -/
def C2Fact (now : ℤ) (rules : List Rule) (st : St) (s : FactId) (fi : FactInfo) : Prop :=
  ∃ r ∈ rules, ∃ tg viol ab dec neg,
    fi.evidence = .derived r.name tg viol ab dec neg ∧
    r.pre ≠ [] ∧
    (∀ p ∈ r.pre, (st.state_info.lookup p).isSome = true ∧
      (st.state_confidence.lookup p).isSome = true) ∧
    calculate_time_gap_penalty r (check_temporal_causality st.state_info r.pre).2 fi.time =
      .ok (tg, viol) ∧
    ab = check_absence_of_evidence s fi.time st.observed_logs ∧
    dec = calculate_time_decay now fi.time ∧
    neg = apply_negative_evidence_penalty st.negative_evidence s ∧
    st.state_confidence.lookup s =
      some (min r.confidence
        (listMin (r.pre.map (fun p => (st.state_confidence.lookup p).getD 0))) *
        tg * ab * dec * neg)

/-- The shape of a fact newly materialized by one rule firing: origin
`inferred`, provenance recording the rule name and the four factor values,
the firing's event counter and firing time; the factors equal the source
factor functions at the firing's data, and the stored confidence is the
factor product over `min(rule confidence, min parent confidence)`. -/
def NewSpec (now : ℤ) (r : Rule) (pt it : ℤ) (ec : ℕ) (st st' : St)
    (k : FactId) (fi : FactInfo) : Prop :=
  ∃ tg viol ab dec neg,
    fi = { origin := "inferred", evidence := .derived r.name tg viol ab dec neg,
           event_id := ec, time := it } ∧
    calculate_time_gap_penalty r pt it = .ok (tg, viol) ∧
    ab = check_absence_of_evidence k it st.observed_logs ∧
    dec = calculate_time_decay now it ∧
    neg = apply_negative_evidence_penalty st.negative_evidence k ∧
    st'.state_confidence.lookup k =
      some (min r.confidence
        (listMin (r.pre.map (fun p => (st.state_confidence.lookup p).getD 0))) *
        tg * ab * dec * neg)

/-- What one `for post in rule["post"]` loop execution guarantees, relating
the store `st` (with input flag `b`) before to the store `st'` (with output
flag `b'`) after. -/
structure PostsOut (now : ℤ) (r : Rule) (pt it : ℤ) (ec : ℕ) (posts : List FactId)
    (st : St) (b : Bool) (st' : St) (b' : Bool) : Prop where
  wf : WF st'
  logs : st'.observed_logs = st.observed_logs
  negev : st'.negative_evidence = st.negative_evidence
  applied : st'.applied_rules = st.applied_rules
  counter : st'.event_counter = st.event_counter
  curMono : ∀ s ∈ st.current_states, s ∈ st'.current_states
  curUpper : ∀ s ∈ st'.current_states, s ∈ st.current_states ∨ s ∈ posts
  confEq : ∀ s ∈ st.current_states,
    st'.state_confidence.lookup s = st.state_confidence.lookup s
  news : ∃ newE, st'.state_info = st.state_info ++ newE ∧
    (∀ kv ∈ newE, kv.2.event_id = ec ∧ kv.1 ∈ posts ∧ kv.1 ∉ st.current_states) ∧
    b' = (b || !newE.isEmpty)
  lookups : ∀ k fi, st'.state_info.lookup k = some fi →
    st.state_info.lookup k = some fi ∨
    (st.state_info.lookup k = none ∧ NewSpec now r pt it ec st st' k fi)
  unchanged : b' = false → st' = st ∧ b = false

/-- What a successful inference step (one rule, one pass, or the whole run)
guarantees about the evolution of a well-formed store. -/
structure RunOut (now : ℤ) (rules : List Rule) (st st' : St) : Prop where
  wf : WF st'
  logs : st'.observed_logs = st.observed_logs
  negev : st'.negative_evidence = st.negative_evidence
  counter : st'.event_counter = st.event_counter
  curMono : ∀ s ∈ st.current_states, s ∈ st'.current_states
  appliedMono : ∀ n ∈ st.applied_rules.map AppliedRule.name,
    n ∈ st'.applied_rules.map AppliedRule.name
  confPersist : ∀ k, (st.state_confidence.lookup k).isSome = true →
    st'.state_confidence.lookup k = st.state_confidence.lookup k
  infoPersist : ∀ k v, st.state_info.lookup k = some v → st'.state_info.lookup k = some v
  inferredNew : ∀ k fi, st'.state_info.lookup k = some fi →
    st.state_info.lookup k = some fi ∨
    (st.state_info.lookup k = none ∧ fi.origin = "inferred" ∧ C2Fact now rules st' k fi)

/-- Every stored confidence lies in `[0,1]` and every hypothetical-origin
fact's confidence is at most `0.3`. -/
def ConfBounds (st : St) : Prop :=
  (∀ kv ∈ st.state_confidence, 0 ≤ kv.2 ∧ kv.2 ≤ 1) ∧
  (∀ kv ∈ st.state_info, kv.2.origin = "hypothetical" →
    ∀ c, st.state_confidence.lookup kv.1 = some c → c ≤ 0.3)

/-- Every stored fact's event timestamp is at most `now`. -/
def TimesLE (st : St) (now : ℤ) : Prop :=
  ∀ kv ∈ st.state_info, kv.2.time ≤ now

/-- Rule-set sanity from the data model: base confidences in `[0,1]` and any
declared maximum time gap positive. -/
def RulesOK (rules : List Rule) : Prop :=
  ∀ r ∈ rules, (0 ≤ r.confidence ∧ r.confidence ≤ 1) ∧
    ∀ T, r.max_time_gap = some T → 0 < T

/-- Every observed (log-origin) fact has confidence exactly `1.0`, and its
identifier cannot collide with a synthesized lateral-movement identifier
(log-origin identifiers start with `user_access:`, `admin_access:`,
`credential_dumped:` or `network_access:`, never with an `l`). -/
def ObsInv (st : St) : Prop :=
  (∀ kv ∈ st.state_info, kv.2.origin = "log" →
    st.state_confidence.lookup kv.1 = some 1.0) ∧
  (∀ kv ∈ st.state_info, kv.2.origin = "log" → kv.1.data.head? ≠ some 'l')

/-- An arbitrary sequence of the three store operations (log ingestion —
which also records negative evidence —, successful inference, missing-step
synthesis), each at its own wall-clock time and rule set. -/
inductive OpSeq : St → St → Prop where
  | refl (st : St) : OpSeq st st
  | ingest (batch : List LogEntry) {a b : St} (h : OpSeq a b) :
      OpSeq a (ingest_logs batch b)
  | infer (now : ℤ) (rules : List Rule) {a b c : St} (h : OpSeq a b)
      (hrun : run_inference now rules b = .ok c) : OpSeq a c
  | missing (now : ℤ) (rules : List Rule) {a b : St} (h : OpSeq a b) :
      OpSeq a (infer_missing_steps now rules b).1

/-- The operation sequences of `OpSeq` restricted, at each inference step, to
sane rule sets and to wall clocks not preceding any stored event timestamp
(the hypotheses under which the confidence bounds hold). -/
inductive OpSeqT : St → St → Prop where
  | refl (st : St) : OpSeqT st st
  | ingest (batch : List LogEntry) {a b : St} (h : OpSeqT a b) :
      OpSeqT a (ingest_logs batch b)
  | infer (now : ℤ) (rules : List Rule) {a b c : St} (h : OpSeqT a b)
      (hrules : RulesOK rules) (hts : TimesLE b now)
      (hrun : run_inference now rules b = .ok c) : OpSeqT a c
  | missing (now : ℤ) (rules : List Rule) {a b : St} (h : OpSeqT a b) :
      OpSeqT a (infer_missing_steps now rules b).1

/-- The event identifier of the last-inserted `state_info` entry (`0` for an
empty store), the basis for `run_inference`'s event counter
`state_info[list(state_info.keys())[-1]]["event_id"]`. -/
def lastId (info : List (FactId × FactInfo)) : ℕ :=
  match info.getLast? with
  | some kv => kv.2.event_id
  | none => 0

/-- Event identifiers are non-decreasing in creation (insertion) order. -/
def IdsMono (st : St) : Prop :=
  List.Pairwise (fun a b => a.2.event_id ≤ b.2.event_id) st.state_info

/-- Every event identifier is bounded by the store size. -/
def IdsLe (st : St) : Prop :=
  ∀ kv ∈ st.state_info, kv.2.event_id ≤ st.state_info.length

/-! ## Concrete scenario data used by witnesses and counterexamples -/

/-- Sample rule used by the C3 witness. -/
def c3Rule : Rule :=
  { name := "Lateral Movement A_to_B", pre := ["credential_dumped:A", "network_access:A_to_B"],
    post := ["user_access:B"], confidence := 0.6, tactic := "Lateral Movement",
    max_time_gap := some 3600 }

/-- Rule declaring `max_time_gap = 0`, the C4 failing input. -/
def zeroGapRule : Rule :=
  { name := "zero-gap rule", pre := ["p"], post := ["q"], confidence := 0.5,
    tactic := "t", max_time_gap := some 0 }

/-- Rule for the C1 scenario: a single precondition `p` and a single
postcondition `q`. -/
def c1Rule : Rule :=
  { name := "r-c1", pre := ["p"], post := ["q"], confidence := 0.9, tactic := "t" }

/-- Store for the C1 scenario: precondition fact `p` at `t = 100`,
postcondition fact `q` already present at `t = 50`, both observed with
confidence 1. -/
def c1St : St :=
  { state_info := [("p", { origin := "log", evidence := .logs [], event_id := 1, time := 100 }),
                   ("q", { origin := "log", evidence := .logs [], event_id := 2, time := 50 })],
    state_confidence := [("p", 1), ("q", 1)],
    current_states := ["p", "q"],
    observed_logs := [], negative_evidence := [], applied_rules := [], event_counter := 2 }

/-- Rule with two postconditions, the C9 counterexample input. -/
def c9Rule : Rule :=
  { name := "r-c9", pre := ["p"], post := ["x", "y"], confidence := 0.5, tactic := "t" }

/-- Store with a single observed precondition fact for the C9 run. -/
def c9St : St :=
  { state_info := [("p", { origin := "log", evidence := .logs [], event_id := 1, time := 0 })],
    state_confidence := [("p", 1)],
    current_states := ["p"],
    observed_logs := [], negative_evidence := [], applied_rules := [], event_counter := 1 }

/-- A log record timestamped in the future of the run's wall clock. -/
def c7Log : LogEntry :=
  { event_type := "login", timestamp := 8200, host := "A", privilege := "user" }

/-- The privilege-escalation rule of `rules.py`. -/
def c7Rule : Rule :=
  { name := "Privilege Escalation on A", pre := ["user_access:A"],
    post := ["admin_access:A"], confidence := 0.7, tactic := "Privilege Escalation" }

/-- The store after ingesting the future-timestamped login. -/
def c7St : St :=
  { state_info := [("user_access:A",
      { origin := "log", evidence := .logs [c7Log], event_id := 1, time := 8200 })],
    state_confidence := [("user_access:A", 1.0)],
    current_states := ["user_access:A"],
    observed_logs := [c7Log], negative_evidence := [], applied_rules := [],
    event_counter := 1 }

/-- Rule with one precondition and one postcondition for the C2 witness run. -/
def c2Rule : Rule :=
  { name := "r-c2", pre := ["p"], post := ["q"], confidence := 0.5, tactic := "t" }

/-- The store the C2 witness run produces. -/
noncomputable def c2res : St :=
  ((run_inference 0 [c2Rule] c9St).toOption).getD emptySt

/-- The info entry of the fact the C2 witness run materializes. -/
noncomputable def c2fi : FactInfo :=
  (c2res.state_info.lookup "q").getD
    { origin := "", evidence := .logs [], event_id := 0, time := 0 }

/-- The hypothetical inference produced by the C6 precursor-gap scenario. -/
def c6Hyp : HypWip :=
  { state := "user_access:A", reason := "Required for observed admin_access:A",
    confidence := 0.3, mechanism := "unknown" }

/-- Store containing a single observed administrative-access fact on host A,
the C6 scenario. -/
def c6St : St :=
  { state_info := [("admin_access:A",
      { origin := "log", evidence := .logs [], event_id := 1, time := 0 })],
    state_confidence := [("admin_access:A", 1.0)],
    current_states := ["admin_access:A"],
    observed_logs := [], negative_evidence := [], applied_rules := [],
    event_counter := 1 }

/-! ## Dictionary lemmas -/

theorem lookup_cons_pos {α : Type} {k : FactId} (kv : FactId × α) (rest : List (FactId × α))
    (h : (k == kv.1) = true) : List.lookup k (kv :: rest) = some kv.2 := by
  obtain ⟨a, b⟩ := kv
  simp only [List.lookup]
  rw [h]

theorem lookup_cons_neg {α : Type} {k : FactId} (kv : FactId × α) (rest : List (FactId × α))
    (h : (k == kv.1) = false) : List.lookup k (kv :: rest) = List.lookup k rest := by
  obtain ⟨a, b⟩ := kv
  simp only [List.lookup]
  rw [h]

theorem beq_false_of_ne' {k k' : FactId} (h : ¬ k = k') : (k == k') = false := by
  simpa using h

theorem any_key_iff_mem {α : Type} (m : List (FactId × α)) (k : FactId) :
    (m.any (fun kv => kv.1 == k)) = true ↔ k ∈ keysOf m := by
  rw [List.any_eq_true]
  constructor
  · rintro ⟨kv, hkv, hbeq⟩
    have := eq_of_beq hbeq
    subst this
    exact List.mem_map_of_mem Prod.fst hkv
  · intro hk
    obtain ⟨kv, hkv, hfst⟩ := List.mem_map.mp hk
    exact ⟨kv, hkv, by rw [hfst]; simp⟩

theorem contains_iff_mem (s : List FactId) (x : FactId) :
    s.contains x = true ↔ x ∈ s := by
  induction s with
  | nil => simp
  | cons a rest ih =>
    simp only [List.contains_cons, Bool.or_eq_true, List.mem_cons]
    rw [ih]
    constructor
    · rintro (hb | hm)
      · exact Or.inl (eq_of_beq hb)
      · exact Or.inr hm
    · rintro (he | hm)
      · exact Or.inl (by rw [he]; simp)
      · exact Or.inr hm

theorem lookup_eq_none {α : Type} (m : List (FactId × α)) (k : FactId)
    (h : k ∉ keysOf m) : m.lookup k = none := by
  induction m with
  | nil => rfl
  | cons kv rest ih =>
    simp only [keysOf, List.map_cons, List.mem_cons, not_or] at h
    rw [lookup_cons_neg kv rest (beq_false_of_ne' h.1)]
    exact ih h.2

theorem lookup_mem {α : Type} {m : List (FactId × α)} {k : FactId} {v : α}
    (h : m.lookup k = some v) : (k, v) ∈ m := by
  induction m with
  | nil => simp [List.lookup] at h
  | cons kv rest ih =>
    by_cases hbeq : (k == kv.1) = true
    · rw [lookup_cons_pos kv rest hbeq] at h
      have hk := eq_of_beq hbeq
      have hv := Option.some.inj h
      have hkv : (k, v) = kv := by
        rw [hk, ← hv]
      rw [hkv]
      exact List.mem_cons_self kv rest
    · rw [lookup_cons_neg kv rest (by simpa using hbeq)] at h
      exact List.mem_cons_of_mem _ (ih h)

theorem lookup_isSome_iff {α : Type} (m : List (FactId × α)) (k : FactId) :
    (m.lookup k).isSome = true ↔ k ∈ keysOf m := by
  induction m with
  | nil => simp [List.lookup, keysOf]
  | cons kv rest ih =>
    by_cases hbeq : (k == kv.1) = true
    · have hk := eq_of_beq hbeq
      rw [lookup_cons_pos kv rest hbeq]
      subst hk
      simp [keysOf]
    · rw [lookup_cons_neg kv rest (by simpa using hbeq)]
      have hk : ¬ k = kv.1 := fun he => hbeq (by rw [he]; simp)
      simp only [keysOf, List.map_cons, List.mem_cons]
      rw [← keysOf, ih]
      simp [hk]

theorem lookup_append {α : Type} (m m' : List (FactId × α)) (k : FactId) :
    (m ++ m').lookup k =
      match m.lookup k with
      | some v => some v
      | none => m'.lookup k := by
  induction m with
  | nil => rfl
  | cons kv rest ih =>
    rw [List.cons_append]
    by_cases hbeq : (k == kv.1) = true
    · rw [lookup_cons_pos kv _ hbeq, lookup_cons_pos kv _ hbeq]
    · rw [lookup_cons_neg kv _ (by simpa using hbeq),
        lookup_cons_neg kv _ (by simpa using hbeq), ih]

theorem lookup_of_mem_nodup {α : Type} {m : List (FactId × α)} {k : FactId} {v : α}
    (hnd : (keysOf m).Nodup) (h : (k, v) ∈ m) : m.lookup k = some v := by
  induction m with
  | nil => simp at h
  | cons kv rest ih =>
    simp only [keysOf, List.map_cons, List.nodup_cons] at hnd
    rcases List.mem_cons.mp h with he | ht
    · subst he
      exact lookup_cons_pos (k, v) rest (by simp)
    · have hk : ¬ k = kv.1 := by
        intro he
        exact hnd.1 (he ▸ List.mem_map_of_mem Prod.fst ht)
      rw [lookup_cons_neg kv rest (beq_false_of_ne' hk)]
      exact ih hnd.2 ht

theorem lookup_map_replace_self {α : Type} (m : List (FactId × α)) (k : FactId) (v : α)
    (h : k ∈ keysOf m) :
    (m.map (fun kv => if kv.1 == k then (k, v) else kv)).lookup k = some v := by
  induction m with
  | nil => simp [keysOf] at h
  | cons kv rest ih =>
    rw [List.map_cons]
    by_cases hb : (kv.1 == k) = true
    · rw [if_pos hb]
      exact lookup_cons_pos (k, v) _ (by simp)
    · rw [if_neg hb]
      have hk : ¬ k = kv.1 := fun he => hb (by rw [he]; simp)
      rw [lookup_cons_neg kv _ (beq_false_of_ne' hk)]
      simp only [keysOf, List.map_cons, List.mem_cons] at h
      exact ih (h.resolve_left hk)

theorem lookup_map_replace {α : Type} (m : List (FactId × α)) (k k' : FactId) (v : α)
    (h : ¬ k' = k) :
    (m.map (fun kv => if kv.1 == k then (k, v) else kv)).lookup k' = m.lookup k' := by
  induction m with
  | nil => rfl
  | cons kv rest ih =>
    rw [List.map_cons]
    by_cases hb : (kv.1 == k) = true
    · rw [if_pos hb]
      have hk2 : ¬ k' = kv.1 := fun he => h (he.trans (eq_of_beq hb))
      rw [lookup_cons_neg (k, v) _ (beq_false_of_ne' h),
        lookup_cons_neg kv rest (beq_false_of_ne' hk2)]
      exact ih
    · rw [if_neg hb]
      by_cases hk : (k' == kv.1) = true
      · rw [lookup_cons_pos kv _ hk, lookup_cons_pos kv _ hk]
      · rw [lookup_cons_neg kv _ (by simpa using hk),
          lookup_cons_neg kv _ (by simpa using hk)]
        exact ih

theorem dinsert_lookup_self {α : Type} (m : List (FactId × α)) (k : FactId) (v : α) :
    (dinsert m k v).lookup k = some v := by
  unfold dinsert
  by_cases hany : (m.any (fun kv => kv.1 == k)) = true
  · rw [if_pos hany]
    exact lookup_map_replace_self m k v ((any_key_iff_mem m k).mp hany)
  · rw [if_neg hany, lookup_append, lookup_eq_none m k]
    · exact lookup_cons_pos (k, v) [] (by simp)
    · intro hk
      exact hany ((any_key_iff_mem m k).mpr hk)

theorem dinsert_lookup_ne {α : Type} (m : List (FactId × α)) (k k' : FactId) (v : α)
    (h : ¬ k' = k) : (dinsert m k v).lookup k' = m.lookup k' := by
  unfold dinsert
  by_cases hany : (m.any (fun kv => kv.1 == k)) = true
  · rw [if_pos hany]
    exact lookup_map_replace m k k' v h
  · rw [if_neg hany, lookup_append]
    cases hm : m.lookup k' with
    | some w => rfl
    | none =>
      rw [lookup_cons_neg (k, v) [] (beq_false_of_ne' h)]
      rfl

theorem keysOf_map_replace {α : Type} (m : List (FactId × α)) (k : FactId) (v : α) :
    keysOf (m.map (fun kv => if kv.1 == k then (k, v) else kv)) = keysOf m := by
  unfold keysOf
  rw [List.map_map]
  apply List.map_congr_left
  intro kv _
  by_cases hb : (kv.1 == k) = true
  · simp only [Function.comp, if_pos hb]
    exact (eq_of_beq hb).symm
  · simp only [Function.comp, if_neg hb]

theorem keysOf_dinsert_mem {α : Type} (m : List (FactId × α)) (k : FactId) (v : α)
    (h : k ∈ keysOf m) : keysOf (dinsert m k v) = keysOf m := by
  unfold dinsert
  rw [if_pos ((any_key_iff_mem m k).mpr h)]
  exact keysOf_map_replace m k v

theorem keysOf_dinsert_not_mem {α : Type} (m : List (FactId × α)) (k : FactId) (v : α)
    (h : k ∉ keysOf m) : keysOf (dinsert m k v) = keysOf m ++ [k] := by
  unfold dinsert
  rw [if_neg (fun hc => h ((any_key_iff_mem m k).mp hc))]
  unfold keysOf
  rw [List.map_append]
  rfl

theorem nodup_dinsert {α : Type} (m : List (FactId × α)) (k : FactId) (v : α)
    (h : (keysOf m).Nodup) : (keysOf (dinsert m k v)).Nodup := by
  by_cases hk : k ∈ keysOf m
  · rw [keysOf_dinsert_mem m k v hk]
    exact h
  · rw [keysOf_dinsert_not_mem m k v hk]
    simp [List.nodup_append, h, hk]

theorem mem_sadd_iff (s : List FactId) (x y : FactId) :
    y ∈ sadd s x ↔ y ∈ s ∨ y = x := by
  unfold sadd
  by_cases hc : s.contains x = true
  · rw [if_pos hc]
    constructor
    · exact Or.inl
    · rintro (hm | he)
      · exact hm
      · exact he ▸ (contains_iff_mem s x).mp hc
  · rw [if_neg hc]
    simp

theorem sadd_mem_self (s : List FactId) (x : FactId) : x ∈ sadd s x :=
  (mem_sadd_iff s x x).mpr (Or.inr rfl)

theorem mem_sadd_of_mem (s : List FactId) (x y : FactId) (h : y ∈ s) : y ∈ sadd s x :=
  (mem_sadd_iff s x y).mpr (Or.inl h)

theorem dinsert_fresh {α : Type} (m : List (FactId × α)) (k : FactId) (v : α)
    (h : k ∉ keysOf m) : dinsert m k v = m ++ [(k, v)] := by
  unfold dinsert
  rw [if_neg (fun hc => h ((any_key_iff_mem m k).mp hc))]

theorem lookup_append_some {α : Type} {m : List (FactId × α)} (m' : List (FactId × α))
    {k : FactId} {v : α} (h : m.lookup k = some v) : (m ++ m').lookup k = some v := by
  rw [lookup_append, h]

theorem lookup_append_none {α : Type} {m : List (FactId × α)} (m' : List (FactId × α))
    {k : FactId} (h : m.lookup k = none) : (m ++ m').lookup k = m'.lookup k := by
  rw [lookup_append, h]

theorem lookup_single_self {α : Type} (k : FactId) (v : α) :
    List.lookup k [(k, v)] = some v :=
  lookup_cons_pos (k, v) [] (by simp)

theorem lookup_single_ne {α : Type} (k k' : FactId) (v : α) (h : ¬ k' = k) :
    List.lookup k' [(k, v)] = none := by
  rw [lookup_cons_neg (k, v) [] (beq_false_of_ne' h)]
  rfl

theorem keysOf_append {α : Type} (m m' : List (FactId × α)) :
    keysOf (m ++ m') = keysOf m ++ keysOf m' := by
  unfold keysOf
  exact List.map_append Prod.fst m m'

theorem lookup_append_single_ne {α : Type} (m : List (FactId × α)) (k k' : FactId)
    (v : α) (h : ¬ k' = k) : (m ++ [(k, v)]).lookup k' = m.lookup k' := by
  rw [lookup_append]
  cases hm : m.lookup k' with
  | some w => rfl
  | none => exact lookup_single_ne k k' v h

/-- Unfolding of `calculate_time_gap_penalty` for a declared threshold. -/
theorem tgp_some (r : Rule) (T pre cur : ℤ) (hT : r.max_time_gap = some T) :
    calculate_time_gap_penalty r pre cur =
      if cur - pre < 0 then .ok (0.0, some "causality_violation")
      else if T < cur - pre then
        if T = 0 then .error "ZeroDivisionError"
        else .ok (max ((0.5 : ℝ) ^ (((cur - pre - T : ℤ) : ℝ) / (T : ℝ))) 0.1,
                  some "time_gap_exceeded")
      else if T = 0 then .error "ZeroDivisionError"
      else .ok (max (1.0 - 0.3 * ((cur - pre : ℤ) : ℝ) / (T : ℝ)) 0.7, none) := by
  unfold calculate_time_gap_penalty
  rw [hT]

/-- Unfolding of `calculate_time_gap_penalty` with no declared threshold. -/
theorem tgp_none (r : Rule) (pre cur : ℤ) (hT : r.max_time_gap = none) :
    calculate_time_gap_penalty r pre cur =
      if cur - pre < 0 then .ok (0.0, some "causality_violation")
      else .ok (1.0, none) := by
  unfold calculate_time_gap_penalty
  rw [hT]

/-- Claim C3: for a rule with declared maximum time gap `T > 0` and
non-negative firing gap `g = cur - pre`, the time-gap factor is
`max(1.0 - 0.3*(g/T), 0.7)` when `g ≤ T` and
`max(0.5^((g-T)/T), 0.1)` when `g > T`; a rule with no declared maximum gets
factor `1.0`; and at `T = 3600` the gaps `3600` and `7200` yield exactly
`0.7` and `0.5`. -/
theorem C3_time_gap_factor :
    (∀ (r : Rule) (T pre cur : ℤ), r.max_time_gap = some T → 0 < T → 0 ≤ cur - pre →
      (cur - pre ≤ T →
        calculate_time_gap_penalty r pre cur =
          .ok (max (1.0 - 0.3 * ((cur - pre : ℤ) : ℝ) / (T : ℝ)) 0.7, none)) ∧
      (T < cur - pre →
        calculate_time_gap_penalty r pre cur =
          .ok (max ((0.5 : ℝ) ^ (((cur - pre - T : ℤ) : ℝ) / (T : ℝ))) 0.1,
               some "time_gap_exceeded"))) ∧
    (∀ (r : Rule) (pre cur : ℤ), r.max_time_gap = none → 0 ≤ cur - pre →
      calculate_time_gap_penalty r pre cur = .ok (1.0, none)) ∧
    (∀ r : Rule, r.max_time_gap = some 3600 →
      calculate_time_gap_penalty r 0 3600 = .ok (0.7, none) ∧
      calculate_time_gap_penalty r 0 7200 = .ok (0.5, some "time_gap_exceeded")) := by
  refine ⟨?_, ?_, ?_⟩
  · intro r T pre cur hT hTpos hg
    rw [tgp_some r T pre cur hT]
    constructor
    · intro hle
      rw [if_neg (by omega), if_neg (by omega), if_neg (by omega)]
    · intro hlt
      rw [if_neg (by omega), if_pos (by omega), if_neg (by omega)]
  · intro r pre cur hT hg
    rw [tgp_none r pre cur hT, if_neg (by omega)]
  · intro r hT
    constructor
    · rw [tgp_some r 3600 0 3600 hT]
      rw [if_neg (by norm_num), if_neg (by norm_num), if_neg (by norm_num)]
      congr 2
      norm_num
    · rw [tgp_some r 3600 0 7200 hT]
      rw [if_neg (by norm_num), if_pos (by norm_num), if_neg (by norm_num)]
      congr 2
      have h1 : (((7200 - 0 - 3600 : ℤ) : ℝ) / ((3600 : ℤ) : ℝ)) = 1 := by norm_num
      rw [h1, Real.rpow_one]
      norm_num

/-- Witness for C3 at the rule with `max_time_gap = 3600` and the boundary
gaps 3600 and 7200. -/
theorem C3_time_gap_factor_witness :
    calculate_time_gap_penalty c3Rule 0 3600 = .ok (0.7, none) ∧
    calculate_time_gap_penalty c3Rule 0 7200 = .ok (0.5, some "time_gap_exceeded") :=
  C3_time_gap_factor.2.2 c3Rule rfl

/-- Claim C4 (refuting theorem): the source does not guard the zero-threshold
division.  For a rule declaring `max_time_gap = 0`, `calculate_time_gap_penalty`
divides by the threshold on both remaining branches and raises
`ZeroDivisionError` (positive gap and zero gap alike), so the computation is
not total. -/
theorem C4_zero_max_gap_raises :
    calculate_time_gap_penalty zeroGapRule 0 1 = .error "ZeroDivisionError" ∧
    calculate_time_gap_penalty zeroGapRule 0 0 = .error "ZeroDivisionError" := by
  constructor
  · rw [tgp_some zeroGapRule 0 0 1 rfl]
    rw [if_neg (by norm_num), if_pos (by norm_num), if_pos rfl]
  · rw [tgp_some zeroGapRule 0 0 0 rfl]
    rw [if_neg (by norm_num), if_neg (by norm_num), if_pos rfl]

/-! ## Claim C1: existing postcondition older than the preconditions -/

/-- Claim C1 is false on the code: with the rule's precondition `p` satisfied
at `t = 100` and its postcondition `q` already stored at `t = 50`,
`run_inference` leaves the store completely unchanged — the postcondition's
confidence stays `1`, it is not set to the policy value `0.01`, and the rule
is not recorded in `applied_rules` (it does not count as fired). -/
theorem C1_causality_counterexample :
    run_inference 100 [c1Rule] c1St = .ok c1St ∧
    c1St.state_confidence.lookup "q" = some 1 ∧
    ¬ c1St.state_confidence.lookup "q" = some 0.01 ∧
    c1St.applied_rules = [] := by
  refine ⟨rfl, rfl, ?_, rfl⟩
  intro h
  have h1 : (1 : ℝ) = 0.01 := by injection h
  norm_num at h1

/-- Claim C1 (amended): a not-yet-applied rule whose preconditions are all
current but some postcondition of which already exists strictly before the
latest precondition time is skipped entirely by the inference step: the store
is returned unchanged and the rule does not count as progress. -/
theorem C1_causality_skip (now : ℤ) (r : Rule) (st : St)
    (hpre : r.pre.all (fun p => st.current_states.contains p) = true)
    (hct : (check_temporal_causality st.state_info r.pre).1 = true)
    (hviol : ∃ post ∈ r.post, ∃ fi, st.state_info.lookup post = some fi ∧
      fi.time < (check_temporal_causality st.state_info r.pre).2) :
    fireRule now r st = .ok (st, false) := by
  unfold fireRule
  by_cases happ : ((st.applied_rules.map (·.name)).contains r.name) = true
  · rw [if_pos happ]
  · rw [if_neg happ, hpre]
    rw [if_neg (by decide : ¬((!true) = true))]
    revert hct hviol
    rcases hc : check_temporal_causality st.state_info r.pre with ⟨b, pt⟩
    intro hct hviol
    simp only at hct
    subst hct
    have hany : (r.post.any fun post =>
        match st.state_info.lookup post with
        | some fi => decide (fi.time < pt)
        | none => false) = true := by
      rw [List.any_eq_true]
      obtain ⟨post, hmem, fi, hlk, hlt⟩ := hviol
      refine ⟨post, hmem, ?_⟩
      rw [hlk]
      exact decide_eq_true hlt
    dsimp only
    rw [if_pos hany]

/-- Witness for the amended C1 theorem at the concrete causality-violation
store. -/
theorem C1_causality_skip_witness : fireRule 100 c1Rule c1St = .ok (c1St, false) :=
  C1_causality_skip 100 c1Rule c1St (by decide) rfl
    ⟨"q", by decide,
     { origin := "log", evidence := .logs [], event_id := 2, time := 50 }, rfl, by decide⟩

/-! ## Claim C9: event identifiers -/

/-- Claim C9 is false on the code: a rule with two postconditions computes its
event counter once per firing, so the two facts `x` and `y`, created one after
the other by the same firing, both receive `event_id = 2` — the later fact's
identifier is not strictly greater and event identifiers are not unique. -/
theorem C9_counterexample :
    ((run_inference 0 [c9Rule] c9St).toOption.bind
      (fun s => s.state_info.lookup "x")).map (·.event_id) = some 2 ∧
    ((run_inference 0 [c9Rule] c9St).toOption.bind
      (fun s => s.state_info.lookup "y")).map (·.event_id) = some 2 ∧
    ("x" : String) ≠ "y" :=
  ⟨rfl, rfl, by decide⟩

/-! ## Claim C7: confidence bounds -/

/-- Claim C7 is false on the code: ingesting a login whose event timestamp
(8200) lies in the future of the wall clock (1000) and running inference
stores `admin_access:A` with confidence `0.7 × 1 × 0.5 × 4 × 1 = 1.4 > 1`,
because the age `now - firingTime = -7200` makes the decay factor
`max(0.5^(-7200/3600), 0.3) = 4` exceed one. -/
theorem C7_counterexample :
    ingest_logs [c7Log] emptySt = c7St ∧
    ((run_inference 1000 [c7Rule] c7St).toOption.bind
      (fun s => s.state_confidence.lookup "admin_access:A")).getD 0 = 1.4 ∧
    ¬ ((1.4 : ℝ) ≤ 1) := by
  refine ⟨rfl, ?_, by norm_num⟩
  have h : ((run_inference 1000 [c7Rule] c7St).toOption.bind
      (fun s => s.state_confidence.lookup "admin_access:A")) =
      some (min (0.7 : ℝ) (listMin [(1.0 : ℝ)]) * 1.0 * 0.5 *
        calculate_time_decay 1000 8200 * 1.0) :=
    rfl
  rw [h]
  have hdecay : calculate_time_decay 1000 8200 = 4 := by
    unfold calculate_time_decay
    have he : (((1000 - 8200 : ℤ) : ℝ) / 3600) = ((-2 : ℤ) : ℝ) := by norm_num
    rw [he, Real.rpow_intCast]
    have h4 : ((0.5 : ℝ) ^ (-2 : ℤ)) = 4 := by norm_num
    rw [h4]
    exact max_eq_left (by norm_num)
  rw [hdecay]
  have hmin : listMin [(1.0 : ℝ)] = 1.0 := rfl
  rw [hmin, min_eq_left (by norm_num)]
  norm_num

/-! ## Claim C6: precursor-gap reconstruction -/

/-- A head entry that is not of log origin contributes nothing to the gap
scan. -/
theorem scan_head_not_log (current : List FactId) (name : FactId) (info : FactInfo)
    (rest : List (FactId × FactInfo)) (h : ¬ info.origin = "log") :
    scanGaps current ((name, info) :: rest) = scanGaps current rest := by
  simp only [scanGaps]
  rw [if_neg (by simp [h]), List.nil_append]

/-- A store without log-origin entries yields no gap hypotheses. -/
theorem scanGaps_no_log (current : List FactId) (l : List (FactId × FactInfo))
    (h : ∀ kv ∈ l, ¬ kv.2.origin = "log") : scanGaps current l = [] := by
  induction l with
  | nil => rfl
  | cons kv rest ih =>
    obtain ⟨name, info⟩ := kv
    rw [scan_head_not_log current name info rest (h (name, info) (List.mem_cons_self _ _))]
    exact ih (fun kv hkv => h kv (List.mem_cons_of_mem _ hkv))

/-- A log-origin `admin_access:A` head entry whose precursor `user_access:A`
is not current contributes exactly the precursor hypothesis. -/
theorem scan_head_admin (current : List FactId) (info : FactInfo)
    (rest : List (FactId × FactInfo)) (hlog : info.origin = "log")
    (hcur : current.contains "user_access:A" = false) :
    scanGaps current (("admin_access:A", info) :: rest) =
      c6Hyp :: scanGaps current rest := by
  simp only [scanGaps]
  rw [hlog]
  rw [if_pos (by decide : (("log" : String) == "log") = true)]
  rw [if_pos (by decide : ((firstChunk "admin_access:A") == "admin_access") = true)]
  rw [show ("user_access:" ++ hostStr (secondChunk "admin_access:A")) = "user_access:A"
    from rfl]
  rw [if_neg (by rw [hcur]; exact Bool.false_ne_true)]
  rw [if_neg (by decide :
    ¬ ((firstChunk "admin_access:A") == "user_access" &&
       !(secondChunk "admin_access:A" == some "A")) = true)]
  rfl

/-- In a store whose only log-origin fact is `admin_access:A` (present, with
`user_access:A` not current), the gap scan produces exactly the precursor
hypothesis. -/
theorem scanGaps_single_admin (current : List FactId) (l : List (FactId × FactInfo))
    (hcur : current.contains "user_access:A" = false)
    (hnd : (keysOf l).Nodup)
    (hone : ∀ kv ∈ l, kv.2.origin = "log" → kv.1 = "admin_access:A")
    (hmem : ∃ fi, ("admin_access:A", fi) ∈ l ∧ fi.origin = "log") :
    scanGaps current l = [c6Hyp] := by
  induction l with
  | nil =>
    obtain ⟨fi, hfi, _⟩ := hmem
    simp at hfi
  | cons kv rest ih =>
    obtain ⟨name, info⟩ := kv
    simp only [keysOf, List.map_cons, List.nodup_cons] at hnd
    by_cases hn : name = "admin_access:A"
    · subst hn
      obtain ⟨fi, hfi, hlog⟩ := hmem
      have hinfo : info.origin = "log" := by
        rcases List.mem_cons.mp hfi with he | ht
        · have : fi = info := congrArg Prod.snd he
          rw [← this]
          exact hlog
        · exact absurd (List.mem_map_of_mem Prod.fst ht) hnd.1
      rw [scan_head_admin current info rest hinfo hcur]
      rw [scanGaps_no_log current rest (fun kv hkv hl => by
        have hk := hone kv (List.mem_cons_of_mem _ hkv) hl
        exact hnd.1 (hk ▸ List.mem_map_of_mem Prod.fst hkv))]
    · have hnl : ¬ info.origin = "log" := fun hl =>
        hn (hone (name, info) (List.mem_cons_self _ _) hl)
      rw [scan_head_not_log current name info rest hnl]
      apply ih hnd.2 (fun kv hkv hl => hone kv (List.mem_cons_of_mem _ hkv) hl)
      obtain ⟨fi, hfi, hlog⟩ := hmem
      rcases List.mem_cons.mp hfi with he | ht
      · exact absurd (congrArg Prod.fst he).symm hn
      · exact ⟨fi, ht, hlog⟩

/-- Claim C6: if the store's only observed (log-origin) fact is
`admin_access:A` and `user_access:A` is not a current fact, then
`infer_missing_steps` synthesizes exactly one hypothetical fact,
`user_access:A`, of hypothetical origin with confidence `0.3` whose reason
references the observed admin-access fact, and returns the count `1`. -/
theorem C6_missing_step (now : ℤ) (rules : List Rule) (st : St)
    (hnd : (keysOf st.state_info).Nodup)
    (hadm : ∃ fi, st.state_info.lookup "admin_access:A" = some fi ∧ fi.origin = "log")
    (hone : ∀ kv ∈ st.state_info, kv.2.origin = "log" → kv.1 = "admin_access:A")
    (hcur : "user_access:A" ∉ st.current_states) :
    (infer_missing_steps now rules st).2 = 1 ∧
    (infer_missing_steps now rules st).1.state_info.lookup "user_access:A" =
      some { origin := "hypothetical",
             evidence := .hyp "Required for observed admin_access:A" "unknown",
             event_id := st.state_info.length + 1, time := now } ∧
    (infer_missing_steps now rules st).1.state_confidence.lookup "user_access:A" =
      some 0.3 ∧
    "user_access:A" ∈ (infer_missing_steps now rules st).1.current_states := by
  have hcontains : st.current_states.contains "user_access:A" = false :=
    Bool.eq_false_iff.mpr (fun hc => hcur ((contains_iff_mem _ _).mp hc))
  obtain ⟨fi, hlk, hlog⟩ := hadm
  have hscan : scanGaps st.current_states st.state_info = [c6Hyp] :=
    scanGaps_single_admin _ _ hcontains hnd hone ⟨fi, lookup_mem hlk, hlog⟩
  unfold infer_missing_steps
  rw [hscan]
  refine ⟨rfl, ?_, ?_, ?_⟩
  · exact dinsert_lookup_self _ _ _
  · exact dinsert_lookup_self _ _ _
  · exact sadd_mem_self _ _

/-- Witness for C6 at the concrete single-admin-fact store. -/
theorem C6_missing_step_witness :
    (infer_missing_steps 5 [] c6St).2 = 1 ∧
    (infer_missing_steps 5 [] c6St).1.state_info.lookup "user_access:A" =
      some { origin := "hypothetical",
             evidence := .hyp "Required for observed admin_access:A" "unknown",
             event_id := c6St.state_info.length + 1, time := 5 } ∧
    (infer_missing_steps 5 [] c6St).1.state_confidence.lookup "user_access:A" =
      some 0.3 ∧
    "user_access:A" ∈ (infer_missing_steps 5 [] c6St).1.current_states :=
  C6_missing_step 5 [] c6St (by decide)
    ⟨{ origin := "log", evidence := .logs [], event_id := 1, time := 0 }, rfl, rfl⟩
    (by
      intro kv hkv _
      rcases List.mem_cons.mp hkv with he | ht
      · rw [he]
      · simp at ht)
    (by decide)

/-! ## Stability and composition lemmas for the inference run -/

theorem collectTimes_congr (info₁ info₂ : List (FactId × FactInfo)) (pre : List FactId)
    (h : ∀ p ∈ pre, info₂.lookup p = info₁.lookup p) :
    collectTimes info₂ pre = collectTimes info₁ pre := by
  induction pre with
  | nil => rfl
  | cons p ps ih =>
    simp only [collectTimes]
    rw [h p (List.mem_cons_self _ _), ih (fun q hq => h q (List.mem_cons_of_mem _ hq))]

theorem check_temporal_congr (info₁ info₂ : List (FactId × FactInfo)) (pre : List FactId)
    (h : ∀ p ∈ pre, info₂.lookup p = info₁.lookup p) :
    check_temporal_causality info₂ pre = check_temporal_causality info₁ pre := by
  unfold check_temporal_causality
  rw [collectTimes_congr info₁ info₂ pre h]

theorem C2Fact_stable (now : ℤ) (rules : List Rule) (st₁ st₂ : St) (k : FactId)
    (fi : FactInfo) (hc : C2Fact now rules st₁ k fi)
    (hlogs : st₂.observed_logs = st₁.observed_logs)
    (hneg : st₂.negative_evidence = st₁.negative_evidence)
    (hconf : ∀ k', (st₁.state_confidence.lookup k').isSome = true →
      st₂.state_confidence.lookup k' = st₁.state_confidence.lookup k')
    (hinfo : ∀ k' v, st₁.state_info.lookup k' = some v →
      st₂.state_info.lookup k' = some v) :
    C2Fact now rules st₂ k fi := by
  obtain ⟨r, hr, tg, viol, ab, dec, neg, hev, hpre, hknown, htg, hab, hdec, hneg2, hcf⟩ := hc
  have hinfoEq : ∀ p ∈ r.pre, st₂.state_info.lookup p = st₁.state_info.lookup p := by
    intro p hp
    obtain ⟨v, hv⟩ := Option.isSome_iff_exists.mp ((hknown p hp).1)
    rw [hv, hinfo p v hv]
  have hconfEq : ∀ p ∈ r.pre,
      st₂.state_confidence.lookup p = st₁.state_confidence.lookup p := by
    intro p hp
    exact hconf p ((hknown p hp).2)
  refine ⟨r, hr, tg, viol, ab, dec, neg, hev, hpre, ?_, ?_, ?_, hdec, ?_, ?_⟩
  · intro p hp
    constructor
    · rw [hinfoEq p hp]
      exact (hknown p hp).1
    · rw [hconfEq p hp]
      exact (hknown p hp).2
  · rw [check_temporal_congr st₁.state_info st₂.state_info r.pre hinfoEq]
    exact htg
  · rw [hlogs]
    exact hab
  · rw [hneg]
    exact hneg2
  · have hmap : r.pre.map (fun p => (st₂.state_confidence.lookup p).getD 0) =
        r.pre.map (fun p => (st₁.state_confidence.lookup p).getD 0) :=
      List.map_congr_left (fun p hp => by rw [hconfEq p hp])
    rw [hmap]
    rw [hconf k (by rw [hcf]; rfl)]
    exact hcf

theorem RunOut.id (now : ℤ) (rules : List Rule) (st : St) (h : WF st) :
    RunOut now rules st st where
  wf := h
  logs := rfl
  negev := rfl
  counter := rfl
  curMono := fun _ hs => hs
  appliedMono := fun _ hn => hn
  confPersist := fun _ _ => rfl
  infoPersist := fun _ _ hv => hv
  inferredNew := fun _ _ hv => Or.inl hv

theorem RunOut.trans {now : ℤ} {rules : List Rule} {a b c : St}
    (h₁ : RunOut now rules a b) (h₂ : RunOut now rules b c) :
    RunOut now rules a c where
  wf := h₂.wf
  logs := h₂.logs.trans h₁.logs
  negev := h₂.negev.trans h₁.negev
  counter := h₂.counter.trans h₁.counter
  curMono := fun s hs => h₂.curMono s (h₁.curMono s hs)
  appliedMono := fun n hn => h₂.appliedMono n (h₁.appliedMono n hn)
  confPersist := fun k hk => by
    rw [h₂.confPersist k (by rw [h₁.confPersist k hk]; exact hk), h₁.confPersist k hk]
  infoPersist := fun k v hv => h₂.infoPersist k v (h₁.infoPersist k v hv)
  inferredNew := fun k fi hfi => by
    rcases h₂.inferredNew k fi hfi with hb | ⟨hbn, horig, hcf⟩
    · rcases h₁.inferredNew k fi hb with ha | ⟨han, horig, hcf⟩
      · exact Or.inl ha
      · refine Or.inr ⟨han, horig, ?_⟩
        exact C2Fact_stable now rules b c k fi hcf h₂.logs h₂.negev h₂.confPersist
          h₂.infoPersist
    · refine Or.inr ⟨?_, horig, hcf⟩
      cases ha : a.state_info.lookup k with
      | none => rfl
      | some v => exact absurd (h₁.infoPersist k v ha) (by rw [hbn]; simp)

/-- With a firing time not before the latest precondition time, the time-gap
penalty cannot report a causality violation (and hence the 0.01 suppression
branch of the postcondition loop is unreachable from `fireRule`). -/
theorem tgp_not_viol (r : Rule) (pt it : ℤ) (hit : pt ≤ it) (tg : ℝ)
    (viol : Option String)
    (h : calculate_time_gap_penalty r pt it = .ok (tg, viol)) :
    ¬ viol = some "causality_violation" := by
  cases hmg : r.max_time_gap with
  | none =>
    rw [tgp_none r pt it hmg, if_neg (by omega)] at h
    cases h
    simp
  | some T =>
    rw [tgp_some r T pt it hmg, if_neg (by omega)] at h
    by_cases hlt : T < it - pt
    · rw [if_pos hlt] at h
      by_cases hz : T = 0
      · rw [if_pos hz] at h
        cases h
      · rw [if_neg hz] at h
        cases h
        intro hc
        have := Option.some.inj hc
        revert this
        decide
    · rw [if_neg hlt] at h
      by_cases hz : T = 0
      · rw [if_pos hz] at h
        cases h
      · rw [if_neg hz] at h
        cases h
        simp

/-- Full characterization of the `for post in rule["post"]` loop on a
well-formed store whose rule preconditions are all current. -/
theorem firePosts_run (now : ℤ) (r : Rule) (pt it : ℤ) (ec : ℕ) (hit : pt ≤ it) :
    ∀ (posts : List FactId) (st : St) (b : Bool) (st' : St) (b' : Bool),
    firePosts now r pt it ec posts st b = .ok (st', b') →
    WF st → (∀ p ∈ r.pre, p ∈ st.current_states) →
    PostsOut now r pt it ec posts st b st' b' := by
  intro posts
  induction posts with
  | nil =>
    intro st b st' b' hrun hwf hpre
    simp only [firePosts] at hrun
    injection hrun with h
    injection h with h1 h2
    subst h1
    subst h2
    refine ⟨hwf, rfl, rfl, rfl, rfl, fun _ hs => hs, fun s hs => Or.inl hs,
      fun _ _ => rfl, ⟨[], by simp, by simp, by simp⟩,
      fun _ _ h => Or.inl h, fun hb => ⟨rfl, hb⟩⟩
  | cons post rest ih =>
    intro st b st' b' hrun hwf hpre
    simp only [firePosts] at hrun
    by_cases hc : st.current_states.contains post = true
    · rw [if_pos hc] at hrun
      have hout := ih st b st' b' hrun hwf hpre
      obtain ⟨ne, hne1, hne2, hne3⟩ := hout.news
      exact ⟨hout.wf, hout.logs, hout.negev, hout.applied, hout.counter, hout.curMono,
        fun s hs => (hout.curUpper s hs).imp id (List.mem_cons_of_mem post),
        hout.confEq,
        ⟨ne, hne1, fun kv hkv =>
          ⟨(hne2 kv hkv).1, List.mem_cons_of_mem _ (hne2 kv hkv).2.1,
           (hne2 kv hkv).2.2⟩, hne3⟩,
        hout.lookups, hout.unchanged⟩
    · rw [if_neg hc] at hrun
      obtain ⟨nd1, nd2, h3, h4, h5, h6⟩ := hwf
      have hpostcur : post ∉ st.current_states := fun hm =>
        hc ((contains_iff_mem _ _).mpr hm)
      have hpostinfo : post ∉ keysOf st.state_info := by
        intro hk
        obtain ⟨kv, hkv, hfst⟩ := List.mem_map.mp hk
        exact hpostcur (hfst ▸ h3 kv hkv)
      have hpostconf : post ∉ keysOf st.state_confidence := by
        intro hk
        obtain ⟨kv, hkv, hfst⟩ := List.mem_map.mp hk
        exact hpostinfo (hfst ▸ (lookup_isSome_iff _ _).mp (h6 kv hkv))
      rcases htg : calculate_time_gap_penalty r pt it with e | pair
      · rw [htg] at hrun
        simp at hrun
      · obtain ⟨tg, viol⟩ := pair
        rw [htg] at hrun
        dsimp only at hrun
        have hviol := tgp_not_viol r pt it hit tg viol htg
        rw [if_neg hviol] at hrun
        set fiNew : FactInfo :=
          { origin := "inferred",
            evidence := Evidence.derived r.name tg viol
              (check_absence_of_evidence post it st.observed_logs)
              (calculate_time_decay now it)
              (apply_negative_evidence_penalty st.negative_evidence post),
            event_id := ec, time := it } with hfiNewDef
        set cNew : ℝ :=
          min r.confidence
            (listMin (r.pre.map (fun p => (st.state_confidence.lookup p).getD 0))) * tg *
            check_absence_of_evidence post it st.observed_logs *
            calculate_time_decay now it *
            apply_negative_evidence_penalty st.negative_evidence post with hcNewDef
        set ST2 : St :=
          { state_info := dinsert st.state_info post fiNew,
            state_confidence := dinsert st.state_confidence post cNew,
            current_states := st.current_states ++ [post],
            observed_logs := st.observed_logs,
            negative_evidence := st.negative_evidence,
            applied_rules := st.applied_rules,
            event_counter := st.event_counter } with hST2Def
        have hinfo2 : ST2.state_info = st.state_info ++ [(post, fiNew)] :=
          dinsert_fresh st.state_info post fiNew hpostinfo
        have hconf2 : ST2.state_confidence = st.state_confidence ++ [(post, cNew)] :=
          dinsert_fresh st.state_confidence post cNew hpostconf
        have hwf2 : WF ST2 := by
          refine ⟨nodup_dinsert _ _ _ nd1, nodup_dinsert _ _ _ nd2, ?_, ?_, ?_, ?_⟩
          · intro kv hkv
            rw [hinfo2] at hkv
            rcases List.mem_append.mp hkv with hold | hnew
            · exact List.mem_append_left _ (h3 kv hold)
            · rw [List.mem_singleton.mp hnew]
              exact List.mem_append_right _ (List.mem_singleton_self _)
          · intro s hs
            rcases List.mem_append.mp hs with hold | hnew
            · obtain ⟨v, hv⟩ := Option.isSome_iff_exists.mp (h4 s hold)
              rw [hinfo2, lookup_append_some _ hv]
              rfl
            · have hsp := List.mem_singleton.mp hnew
              subst hsp
              rw [hinfo2, lookup_append_none _ (lookup_eq_none _ _ hpostinfo),
                lookup_single_self]
              rfl
          · intro s hs
            rcases List.mem_append.mp hs with hold | hnew
            · obtain ⟨v, hv⟩ := Option.isSome_iff_exists.mp (h5 s hold)
              rw [hconf2, lookup_append_some _ hv]
              rfl
            · have hsp := List.mem_singleton.mp hnew
              subst hsp
              rw [hconf2, lookup_append_none _ (lookup_eq_none _ _ hpostconf),
                lookup_single_self]
              rfl
          · intro kv hkv
            rw [hconf2] at hkv
            rcases List.mem_append.mp hkv with hold | hnew
            · obtain ⟨v, hv⟩ := Option.isSome_iff_exists.mp (h6 kv hold)
              rw [hinfo2, lookup_append_some _ hv]
              rfl
            · rw [List.mem_singleton.mp hnew]
              rw [hinfo2, lookup_append_none _ (lookup_eq_none _ _ hpostinfo),
                lookup_single_self]
              rfl
        have hpre2 : ∀ p ∈ r.pre, p ∈ ST2.current_states := fun p hp =>
          List.mem_append_left _ (hpre p hp)
        have hout := ih ST2 true st' b' hrun hwf2 hpre2
        obtain ⟨ne', hne1, hne2, hne3⟩ := hout.news
        have hbtrue : b' = true := by
          rw [hne3]
          exact Bool.true_or _
        refine ⟨hout.wf, hout.logs, hout.negev, hout.applied, hout.counter,
          ?_, ?_, ?_, ?_, ?_, ?_⟩
        · intro s hs
          exact hout.curMono s (List.mem_append_left _ hs)
        · intro s hs
          rcases hout.curUpper s hs with h2 | hrest
          · rcases List.mem_append.mp h2 with hold | hnew
            · exact Or.inl hold
            · rw [List.mem_singleton.mp hnew]
              exact Or.inr (List.mem_cons_self post rest)
          · exact Or.inr (List.mem_cons_of_mem _ hrest)
        · intro s hs
          have hsp : ¬ s = post := fun he => hpostcur (he ▸ hs)
          rw [hout.confEq s (List.mem_append_left _ hs), hconf2,
            lookup_append_single_ne _ _ _ _ hsp]
        · refine ⟨(post, fiNew) :: ne', ?_, ?_, ?_⟩
          · rw [hne1, hinfo2, List.append_assoc]
            rfl
          · intro kv hkv
            rcases List.mem_cons.mp hkv with he | ht
            · rw [he]
              exact ⟨rfl, List.mem_cons_self _ _, hpostcur⟩
            · obtain ⟨hid, hmem, hcur⟩ := hne2 kv ht
              exact ⟨hid, List.mem_cons_of_mem _ hmem,
                fun hm => hcur (List.mem_append_left _ hm)⟩
          · rw [hbtrue]
            simp
        · intro k fi hfi
          rcases hout.lookups k fi hfi with hs2 | ⟨hn2, hns⟩
          · rw [hinfo2] at hs2
            cases hlk : st.state_info.lookup k with
            | some v =>
              rw [lookup_append_some _ hlk] at hs2
              exact Or.inl hs2
            | none =>
              rw [lookup_append_none _ hlk] at hs2
              have hkp : k = post := by
                by_contra hne
                rw [lookup_single_ne _ _ _ hne] at hs2
                cases hs2
              refine Or.inr ⟨rfl, ?_⟩
              rw [hkp] at hs2 ⊢
              rw [lookup_single_self] at hs2
              rw [← Option.some.inj hs2]
              refine ⟨tg, viol, _, _, _, rfl, htg, rfl, rfl, rfl, ?_⟩
              rw [hout.confEq post (List.mem_append_right _ (List.mem_singleton_self _)),
                hconf2, lookup_append_none _ (lookup_eq_none _ _ hpostconf),
                lookup_single_self]
          · have hlkn : st.state_info.lookup k = none := by
              cases hlk : st.state_info.lookup k with
              | none => rfl
              | some v =>
                rw [hinfo2, lookup_append_some _ hlk] at hn2
                cases hn2
            refine Or.inr ⟨hlkn, ?_⟩
            obtain ⟨tg', viol', ab', dec', neg', hfi', htg', hab', hdec', hneg', hcf'⟩ := hns
            refine ⟨tg', viol', ab', dec', neg', hfi', htg', hab', hdec', hneg', ?_⟩
            have hmap : r.pre.map (fun p => (ST2.state_confidence.lookup p).getD 0) =
                r.pre.map (fun p => (st.state_confidence.lookup p).getD 0) :=
              List.map_congr_left (fun p hp => by
                rw [show ST2.state_confidence = dinsert st.state_confidence post cNew
                  from rfl,
                  dinsert_lookup_ne _ _ _ _
                    (fun he => hpostcur (by rw [← he]; exact hpre p hp))])
            rw [← hmap]
            exact hcf'
        · intro hb
          rw [hbtrue] at hb
          cases hb

/-! ## Factor bounds and auxiliary order lemmas -/

theorem tgp_bounds (r : Rule) (pt it : ℤ)
    (hgap : ∀ T, r.max_time_gap = some T → 0 < T) (tg : ℝ) (viol : Option String)
    (h : calculate_time_gap_penalty r pt it = .ok (tg, viol)) : 0 ≤ tg ∧ tg ≤ 1 := by
  cases hmg : r.max_time_gap with
  | none =>
    rw [tgp_none r pt it hmg] at h
    by_cases hlt : it - pt < 0
    · rw [if_pos hlt] at h
      injection h with h'
      injection h' with h1 h2
      rw [← h1]
      norm_num
    · rw [if_neg hlt] at h
      injection h with h'
      injection h' with h1 h2
      rw [← h1]
      norm_num
  | some T =>
    have hT := hgap T hmg
    rw [tgp_some r T pt it hmg] at h
    by_cases hneg : it - pt < 0
    · rw [if_pos hneg] at h
      injection h with h'
      injection h' with h1 h2
      rw [← h1]
      norm_num
    · rw [if_neg hneg] at h
      by_cases hlt : T < it - pt
      · rw [if_pos hlt, if_neg (by omega)] at h
        injection h with h'
        injection h' with h1 h2
        rw [← h1]
        constructor
        · exact le_trans (by norm_num) (le_max_right _ _)
        · apply max_le _ (by norm_num)
          apply Real.rpow_le_one (by norm_num) (by norm_num)
          apply div_nonneg _ (by exact_mod_cast hT.le)
          have : (0 : ℤ) ≤ it - pt - T := by omega
          exact_mod_cast this
      · rw [if_neg hlt, if_neg (by omega)] at h
        injection h with h'
        injection h' with h1 h2
        rw [← h1]
        constructor
        · exact le_trans (by norm_num) (le_max_right _ _)
        · apply max_le _ (by norm_num)
          have h0 : (0 : ℝ) ≤ 0.3 * ((it - pt : ℤ) : ℝ) / (T : ℝ) := by
            apply div_nonneg
            · apply mul_nonneg (by norm_num)
              have : (0 : ℤ) ≤ it - pt := by omega
              exact_mod_cast this
            · exact_mod_cast hT.le
          linarith

theorem absence_bounds (s : String) (t : ℤ) (logs : List LogEntry) :
    0 ≤ check_absence_of_evidence s t logs ∧ check_absence_of_evidence s t logs ≤ 1 := by
  unfold check_absence_of_evidence
  dsimp only
  constructor <;>
  · split
    · norm_num
    · split <;> norm_num

theorem decay_bounds (now t : ℤ) (h : t ≤ now) :
    0 ≤ calculate_time_decay now t ∧ calculate_time_decay now t ≤ 1 := by
  unfold calculate_time_decay
  constructor
  · exact le_trans (by norm_num) (le_max_right _ _)
  · apply max_le _ (by norm_num)
    apply Real.rpow_le_one (by norm_num) (by norm_num)
    apply div_nonneg _ (by norm_num)
    have : (0 : ℤ) ≤ now - t := by omega
    exact_mod_cast this

theorem negpen_bounds (ne : List (FactId × List LogEntry)) (s : FactId) :
    0 ≤ apply_negative_evidence_penalty ne s ∧
    apply_negative_evidence_penalty ne s ≤ 1 := by
  unfold apply_negative_evidence_penalty
  cases ne.lookup s with
  | none => norm_num
  | some ls =>
    dsimp only
    constructor
    · positivity
    · exact pow_le_one₀ (by norm_num) (by norm_num)

theorem listMin_mem : ∀ (l : List ℝ), l ≠ [] → listMin l ∈ l := by
  have haux : ∀ (xs : List ℝ) (a : ℝ), xs.foldl min a ∈ a :: xs := by
    intro xs
    induction xs with
    | nil => intro a; exact List.mem_singleton_self a
    | cons y ys ih =>
      intro a
      rw [List.foldl_cons]
      rcases List.mem_cons.mp (ih (min a y)) with he | ht
      · rw [he]
        rcases min_choice a y with h1 | h1 <;> rw [h1]
        · exact List.mem_cons_self a (y :: ys)
        · exact List.mem_cons_of_mem a (List.mem_cons_self y ys)
      · exact List.mem_cons_of_mem a (List.mem_cons_of_mem y ht)
  intro l hl
  cases l with
  | nil => exact absurd rfl hl
  | cons x xs => exact haux xs x

theorem foldl_max_mem : ∀ (ts : List ℤ) (a : ℤ), ts.foldl max a = a ∨ ts.foldl max a ∈ ts := by
  intro ts
  induction ts with
  | nil => intro a; exact Or.inl rfl
  | cons y ys ih =>
    intro a
    rw [List.foldl_cons]
    rcases ih (max a y) with he | ht
    · rw [he]
      rcases max_choice a y with h1 | h1 <;> rw [h1]
      · exact Or.inl rfl
      · exact Or.inr (List.mem_cons_self y ys)
    · exact Or.inr (List.mem_cons_of_mem y ht)

theorem collectTimes_mem (info : List (FactId × FactInfo)) :
    ∀ (pre : List FactId) (l : List ℤ), collectTimes info pre = some l →
    ∀ x ∈ l, ∃ p ∈ pre, ∃ fi, info.lookup p = some fi ∧ fi.time = x := by
  intro pre
  induction pre with
  | nil =>
    intro l hl x hx
    simp only [collectTimes] at hl
    cases hl
    simp at hx
  | cons p ps ih =>
    intro l hl x hx
    simp only [collectTimes] at hl
    cases hlk : info.lookup p with
    | none => rw [hlk] at hl; cases hl
    | some fi =>
      rw [hlk] at hl
      cases hrest : collectTimes info ps with
      | none => rw [hrest] at hl; cases hl
      | some ts =>
        rw [hrest] at hl
        injection hl with hl'
        rw [← hl'] at hx
        rcases List.mem_cons.mp hx with he | ht
        · exact ⟨p, List.mem_cons_self _ _, fi, hlk, he.symm⟩
        · obtain ⟨q, hq, fi', hfi', ht'⟩ := ih ts hrest x ht
          exact ⟨q, List.mem_cons_of_mem _ hq, fi', hfi', ht'⟩

theorem check_temporal_true_mem (info : List (FactId × FactInfo)) (pre : List FactId)
    (t : ℤ) (h : check_temporal_causality info pre = (true, t)) :
    ∃ p ∈ pre, ∃ fi, info.lookup p = some fi ∧ fi.time = t := by
  unfold check_temporal_causality at h
  cases hct : collectTimes info pre with
  | none => rw [hct] at h; cases h
  | some l =>
    rw [hct] at h
    cases l with
    | nil => cases h
    | cons t0 ts =>
      have ht : t = ts.foldl max t0 := by
        injection h with h1 h2
        exact h2.symm
      rcases foldl_max_mem ts t0 with he | hm
      · exact collectTimes_mem info pre (t0 :: ts) hct t
          (by rw [ht, he]; exact List.mem_cons_self _ _)
      · exact collectTimes_mem info pre (t0 :: ts) hct t
          (by rw [ht]; exact List.mem_cons_of_mem _ hm)

theorem check_temporal_true_ne_nil (info : List (FactId × FactInfo)) (pre : List FactId)
    (t : ℤ) (h : check_temporal_causality info pre = (true, t)) : pre ≠ [] := by
  intro he
  subst he
  simp only [check_temporal_causality, collectTimes] at h
  cases h

theorem lastId_mem (info : List (FactId × FactInfo)) (h : info ≠ []) :
    ∃ kv ∈ info, kv.2.event_id = lastId info := by
  unfold lastId
  cases hl : info.getLast? with
  | none => exact absurd (List.getLast?_eq_none_iff.mp hl) h
  | some kv =>
    obtain ⟨hne, heq⟩ := List.mem_getLast?_eq_getLast (Option.mem_def.mpr hl)
    refine ⟨kv, ?_, rfl⟩
    rw [heq]
    exact List.getLast_mem hne

theorem lastId_cons (kv0 : FactId × FactInfo) (rest : List (FactId × FactInfo))
    (h : rest ≠ []) : lastId (kv0 :: rest) = lastId rest := by
  unfold lastId
  rw [← List.singleton_append, List.getLast?_append_of_ne_nil _ h]

theorem pairwise_le_lastId (info : List (FactId × FactInfo))
    (h : List.Pairwise (fun a b => a.2.event_id ≤ b.2.event_id) info) :
    ∀ kv ∈ info, kv.2.event_id ≤ lastId info := by
  induction info with
  | nil => intro kv hkv; simp at hkv
  | cons kv0 rest ih =>
    intro kv hkv
    by_cases hrn : rest = []
    · subst hrn
      have hk : kv = kv0 := by
        rcases List.mem_cons.mp hkv with he | ht
        · exact he
        · simp at ht
      rw [hk]
      exact le_of_eq rfl
    · rw [lastId_cons kv0 rest hrn]
      rcases List.mem_cons.mp hkv with he | ht
      · subst he
        obtain ⟨kv', hkv', hid⟩ := lastId_mem rest hrn
        rw [← hid]
        exact (List.pairwise_cons.mp h).1 kv' hkv'
      · exact ih (List.pairwise_cons.mp h).2 kv ht

theorem pairwise_const_le (l : List (FactId × FactInfo)) (c : ℕ)
    (h : ∀ kv ∈ l, kv.2.event_id = c) :
    List.Pairwise (fun a b => a.2.event_id ≤ b.2.event_id) l := by
  induction l with
  | nil => exact List.Pairwise.nil
  | cons kv rest ih =>
    refine List.pairwise_cons.mpr ⟨?_, ih (fun kv' h' => h kv' (List.mem_cons_of_mem _ h'))⟩
    intro kv' hkv'
    rw [h kv (List.mem_cons_self _ _), h kv' (List.mem_cons_of_mem _ hkv')]

/-- Either `fireRule` skips (already applied, preconditions unsatisfied,
temporal check failed, or an existing postcondition predates the latest
precondition) and leaves the store untouched, or it fires: the postcondition
loop runs from the skip-free state with event counter `lastId + 1` and the
applied-rule record is appended. -/
theorem fireRule_cases (now : ℤ) (r : Rule) (st st' : St) (b : Bool)
    (hrun : fireRule now r st = .ok (st', b)) (hwf : WF st) :
    (st' = st ∧ b = false) ∨
    ∃ pt st'', check_temporal_causality st.state_info r.pre = (true, pt) ∧
      (∀ p ∈ r.pre, p ∈ st.current_states) ∧
      PostsOut now r pt (max pt now) (lastId st.state_info + 1) r.post st false st'' b ∧
      st' = { st'' with applied_rules := st''.applied_rules ++
        [{ name := r.name, tactic := r.tactic, confidence := r.confidence,
           event_id := lastId st.state_info + 1 }] } := by
  unfold fireRule at hrun
  by_cases happ : ((st.applied_rules.map (·.name)).contains r.name) = true
  · rw [if_pos happ] at hrun
    injection hrun with h
    injection h with h1 h2
    exact Or.inl ⟨h1.symm, h2.symm⟩
  · rw [if_neg happ] at hrun
    by_cases hall : (r.pre.all (fun p => st.current_states.contains p)) = true
    · rw [if_neg (by rw [hall]; simp)] at hrun
      have hpreP : ∀ p ∈ r.pre, p ∈ st.current_states := fun p hp =>
        (contains_iff_mem _ _).mp (List.all_eq_true.mp hall p hp)
      rcases hct : check_temporal_causality st.state_info r.pre with ⟨bb, pt⟩
      rw [hct] at hrun
      cases bb with
      | false =>
        dsimp only at hrun
        injection hrun with h
        injection h with h1 h2
        exact Or.inl ⟨h1.symm, h2.symm⟩
      | true =>
        dsimp only at hrun
        by_cases hviol2 : (r.post.any fun post =>
            match st.state_info.lookup post with
            | some fi => decide (fi.time < pt)
            | none => false) = true
        · rw [if_pos hviol2] at hrun
          injection hrun with h
          injection h with h1 h2
          exact Or.inl ⟨h1.symm, h2.symm⟩
        · rw [if_neg hviol2] at hrun
          have hEC : (match st.state_info.getLast? with
              | some kv => kv.2.event_id + 1
              | none => 1) = lastId st.state_info + 1 := by
            unfold lastId
            cases st.state_info.getLast? <;> rfl
          rw [hEC] at hrun
          rcases hfp : firePosts now r pt (max pt now) (lastId st.state_info + 1)
              r.post st false with e | pair
          · rw [hfp] at hrun
            simp at hrun
          · obtain ⟨st'', added⟩ := pair
            rw [hfp] at hrun
            dsimp only at hrun
            injection hrun with h
            injection h with h1 h2
            refine Or.inr ⟨pt, st'', rfl, hpreP, ?_, h1.symm⟩
            rw [← h2]
            exact firePosts_run now r pt (max pt now) (lastId st.state_info + 1)
              (le_max_left pt now) r.post st false st'' added hfp hwf hpreP
    · rw [if_pos (by rw [Bool.eq_false_iff.mpr hall]; rfl)] at hrun
      injection hrun with h
      injection h with h1 h2
      exact Or.inl ⟨h1.symm, h2.symm⟩

/-- One rule of a pass preserves the run contract. -/
theorem fireRule_runOut (now : ℤ) (rules : List Rule) (r : Rule) (st st' : St) (b : Bool)
    (hr : r ∈ rules) (hrun : fireRule now r st = .ok (st', b)) (hwf : WF st) :
    RunOut now rules st st' := by
  rcases fireRule_cases now r st st' b hrun hwf with ⟨he, _⟩ | ⟨pt, st'', hct, hpreP, hout, hst'⟩
  · rw [he]
    exact RunOut.id now rules st hwf
  · subst hst'
    obtain ⟨newE, hne1, hne2, hne3⟩ := hout.news
    obtain ⟨nd1, nd2, h3, h4, h5, h6⟩ := hwf
    have hcurOf : ∀ k, (st.state_confidence.lookup k).isSome = true →
        k ∈ st.current_states := by
      intro k hk
      obtain ⟨kv, hkv, hfst⟩ := List.mem_map.mp ((lookup_isSome_iff _ _).mp hk)
      obtain ⟨kv', hkv', hfst'⟩ := List.mem_map.mp
        ((lookup_isSome_iff _ _).mp (hfst ▸ h6 kv hkv))
      exact hfst' ▸ h3 kv' hkv'
    have hlkeq : ∀ p ∈ r.pre, st''.state_info.lookup p = st.state_info.lookup p := by
      intro p hp
      obtain ⟨v, hv⟩ := Option.isSome_iff_exists.mp (h4 p (hpreP p hp))
      rw [hne1, lookup_append_some _ hv, hv]
    refine ⟨hout.wf, hout.logs, hout.negev, hout.counter, hout.curMono, ?_, ?_, ?_, ?_⟩
    · intro n hn
      show n ∈ (st''.applied_rules ++ _).map AppliedRule.name
      rw [List.map_append, hout.applied]
      exact List.mem_append_left _ hn
    · intro k hk
      exact hout.confEq k (hcurOf k hk)
    · intro k v hv
      show st''.state_info.lookup k = some v
      rw [hne1]
      exact lookup_append_some _ hv
    · intro k fi hfi
      replace hfi : st''.state_info.lookup k = some fi := hfi
      rcases hout.lookups k fi hfi with hold | ⟨hnone, hns⟩
      · exact Or.inl hold
      · obtain ⟨tg, viol, ab, dec, neg, hfieq, htg, hab, hdec, hneg, hcf⟩ := hns
        subst hfieq
        have hct2 : check_temporal_causality st''.state_info r.pre = (true, pt) :=
          (check_temporal_congr st.state_info st''.state_info r.pre hlkeq).trans hct
        refine Or.inr ⟨hnone, rfl, r, hr, tg, viol, ab, dec, neg, rfl,
          check_temporal_true_ne_nil _ _ pt hct, ?_, ?_, ?_, hdec, ?_, ?_⟩
        · intro p hp
          constructor
          · show (st''.state_info.lookup p).isSome = true
            rw [hlkeq p hp]
            exact h4 p (hpreP p hp)
          · show (st''.state_confidence.lookup p).isSome = true
            rw [hout.confEq p (hpreP p hp)]
            exact h5 p (hpreP p hp)
        · show calculate_time_gap_penalty r
            (check_temporal_causality st''.state_info r.pre).2 (max pt now) = .ok (tg, viol)
          rw [hct2]
          exact htg
        · show ab = check_absence_of_evidence k (max pt now) st''.observed_logs
          rw [hout.logs]
          exact hab
        · show neg = apply_negative_evidence_penalty st''.negative_evidence k
          rw [hout.negev]
          exact hneg
        · show st''.state_confidence.lookup k = some (min r.confidence
            (listMin (r.pre.map (fun p => (st''.state_confidence.lookup p).getD 0))) *
            tg * ab * dec * neg)
          have hm : r.pre.map (fun p => (st''.state_confidence.lookup p).getD 0) =
              r.pre.map (fun p => (st.state_confidence.lookup p).getD 0) :=
            List.map_congr_left (fun p hp => by rw [hout.confEq p (hpreP p hp)])
          rw [hm]
          exact hcf

/-- A rule that reports progress added some postcondition to the current set. -/
theorem fireRule_progress (now : ℤ) (r : Rule) (st st' : St) (b : Bool)
    (hrun : fireRule now r st = .ok (st', b)) (hwf : WF st) (hb : b = true) :
    ∃ q, q ∈ st'.current_states ∧ q ∉ st.current_states ∧ q ∈ r.post := by
  rcases fireRule_cases now r st st' b hrun hwf with ⟨he, hfb⟩ | ⟨pt, st'', hct, hpreP, hout, hst'⟩
  · rw [hfb] at hb
    cases hb
  · subst hst'
    obtain ⟨newE, hne1, hne2, hne3⟩ := hout.news
    rw [hb] at hne3
    cases hne : newE with
    | nil =>
      rw [hne] at hne3
      simp at hne3
    | cons e tl =>
      obtain ⟨_, hqpost, hqcur⟩ := hne2 e (by rw [hne]; exact List.mem_cons_self _ _)
      refine ⟨e.1, ?_, hqcur, hqpost⟩
      show e.1 ∈ st''.current_states
      obtain ⟨_, _, w3, _, _, _⟩ := hout.wf
      apply w3 e
      rw [hne1, hne]
      exact List.mem_append_right _ (List.mem_cons_self _ _)

/-- A rule that reports no progress changes nothing but (possibly) the
applied-rule log. -/
theorem fireRule_coreEq (now : ℤ) (r : Rule) (st st' : St) (b : Bool)
    (hrun : fireRule now r st = .ok (st', b)) (hwf : WF st) (hb : b = false) :
    CoreEq st st' := by
  rcases fireRule_cases now r st st' b hrun hwf with ⟨he, _⟩ | ⟨pt, st'', hct, hpreP, hout, hst'⟩
  · rw [he]
    exact ⟨rfl, rfl, rfl, rfl, rfl, rfl⟩
  · subst hst'
    obtain ⟨he2, _⟩ := hout.unchanged hb
    exact ⟨by show st''.state_info = _; rw [he2], by show st''.state_confidence = _; rw [he2],
      by show st''.current_states = _; rw [he2], by show st''.observed_logs = _; rw [he2],
      by show st''.negative_evidence = _; rw [he2], by show st''.event_counter = _; rw [he2]⟩

/-- Firing a rule keeps all fact timestamps at or before the wall clock. -/
theorem fireRule_times (now : ℤ) (r : Rule) (st st' : St) (b : Bool)
    (hrun : fireRule now r st = .ok (st', b)) (hwf : WF st) (hts : TimesLE st now) :
    TimesLE st' now := by
  rcases fireRule_cases now r st st' b hrun hwf with ⟨he, _⟩ | ⟨pt, st'', hct, hpreP, hout, hst'⟩
  · rw [he]
    exact hts
  · subst hst'
    obtain ⟨newE, hne1, hne2, hne3⟩ := hout.news
    have hpt : pt ≤ now := by
      obtain ⟨p, hp, fi, hfi, htime⟩ := check_temporal_true_mem _ _ _ hct
      rw [← htime]
      exact hts (p, fi) (lookup_mem hfi)
    intro kv hkv
    replace hkv : kv ∈ st''.state_info := hkv
    rw [hne1] at hkv
    rcases List.mem_append.mp hkv with hold | hnew
    · exact hts kv hold
    · obtain ⟨_, _, hkcur⟩ := hne2 kv hnew
      have hkinfo : st.state_info.lookup kv.1 = none := by
        apply lookup_eq_none
        intro hk
        obtain ⟨kv', hkv', hfst⟩ := List.mem_map.mp hk
        exact hkcur (hfst ▸ hwf.2.2.1 kv' hkv')
      obtain ⟨_, _, w3, w4, _, _⟩ := hout.wf
      have hlk : st''.state_info.lookup kv.1 = some kv.2 := by
        apply lookup_of_mem_nodup hout.wf.1
        rw [hne1]
        exact List.mem_append_right _ hnew
      rcases hout.lookups kv.1 kv.2 hlk with hold2 | ⟨_, hns⟩
      · rw [hkinfo] at hold2
        cases hold2
      · obtain ⟨tg, viol, ab, dec, neg, hfieq, _⟩ := hns
        have : kv.2.time = max pt now := by rw [hfieq]
        rw [this]
        exact max_le hpt le_rfl

/-- Firing a rule with a sane confidence and time-gap declaration keeps all
stored confidences in `[0,1]` and hypothetical confidences at or below 0.3. -/
theorem fireRule_bounds (now : ℤ) (r : Rule) (st st' : St) (b : Bool)
    (hrun : fireRule now r st = .ok (st', b)) (hwf : WF st)
    (hrc : 0 ≤ r.confidence ∧ r.confidence ≤ 1)
    (hrg : ∀ T, r.max_time_gap = some T → 0 < T)
    (hts : TimesLE st now) (hcb : ConfBounds st) : ConfBounds st' := by
  rcases fireRule_cases now r st st' b hrun hwf with ⟨he, _⟩ | ⟨pt, st'', hct, hpreP, hout, hst'⟩
  · rw [he]
    exact hcb
  · subst hst'
    obtain ⟨newE, hne1, hne2, hne3⟩ := hout.news
    obtain ⟨wnd1, wnd2, w3, w4, w5, w6⟩ := hout.wf
    obtain ⟨nd1, nd2, h3, h4, h5, h6⟩ := hwf
    have hpt : pt ≤ now := by
      obtain ⟨p, hp, fi, hfi, htime⟩ := check_temporal_true_mem _ _ _ hct
      rw [← htime]
      exact hts (p, fi) (lookup_mem hfi)
    have hit : max pt now ≤ now := max_le hpt le_rfl
    constructor
    · intro kv hkv
      replace hkv : kv ∈ st''.state_confidence := hkv
      have hlkc : st''.state_confidence.lookup kv.1 = some kv.2 :=
        lookup_of_mem_nodup wnd2 hkv
      obtain ⟨fi, hfi⟩ := Option.isSome_iff_exists.mp (w6 kv hkv)
      rcases hout.lookups kv.1 fi hfi with hold | ⟨hnone, hns⟩
      · have hkcur : kv.1 ∈ st.current_states := h3 _ (lookup_mem hold)
        have heq := hout.confEq kv.1 hkcur
        rw [hlkc] at heq
        exact hcb.1 kv (lookup_mem heq.symm)
      · obtain ⟨tg, viol, ab, dec, neg, hfieq, htg, hab, hdec, hneg, hcf⟩ := hns
        have hv := Option.some.inj (hlkc.symm.trans hcf)
        rw [hv]
        have hbtg := tgp_bounds r pt (max pt now) hrg tg viol htg
        have hbab : 0 ≤ ab ∧ ab ≤ 1 := by
          rw [hab]
          exact absence_bounds kv.1 (max pt now) st.observed_logs
        have hbdec : 0 ≤ dec ∧ dec ≤ 1 := by
          rw [hdec]
          exact decay_bounds now (max pt now) hit
        have hbneg : 0 ≤ neg ∧ neg ≤ 1 := by
          rw [hneg]
          exact negpen_bounds st.negative_evidence kv.1
        have hprene := check_temporal_true_ne_nil _ _ pt hct
        have hmapne : r.pre.map (fun p => (st.state_confidence.lookup p).getD 0) ≠ [] := by
          simpa using hprene
        obtain ⟨p, hp, hpeq⟩ := List.mem_map.mp (listMin_mem _ hmapne)
        have hpb : 0 ≤ (st.state_confidence.lookup p).getD 0 ∧
            (st.state_confidence.lookup p).getD 0 ≤ 1 := by
          obtain ⟨v, hv'⟩ := Option.isSome_iff_exists.mp (h5 p (hpreP p hp))
          rw [hv']
          simp only [Option.getD_some]
          exact hcb.1 (p, v) (lookup_mem hv')
        have hbase : 0 ≤ min r.confidence
            (listMin (r.pre.map (fun q => (st.state_confidence.lookup q).getD 0))) ∧
            min r.confidence
            (listMin (r.pre.map (fun q => (st.state_confidence.lookup q).getD 0))) ≤ 1 := by
          constructor
          · apply le_min hrc.1
            rw [← hpeq]
            exact hpb.1
          · exact le_trans (min_le_left _ _) hrc.2
        constructor
        · exact mul_nonneg (mul_nonneg (mul_nonneg (mul_nonneg hbase.1 hbtg.1)
            hbab.1) hbdec.1) hbneg.1
        · have s1 : min r.confidence
              (listMin (r.pre.map (fun q => (st.state_confidence.lookup q).getD 0))) *
              tg ≤ 1 := mul_le_one₀ hbase.2 hbtg.1 hbtg.2
          have s2 := mul_le_one₀ s1 hbab.1 hbab.2
          have s3 := mul_le_one₀ s2 hbdec.1 hbdec.2
          exact mul_le_one₀ s3 hbneg.1 hbneg.2
    · intro kv hkv horig c hc
      replace hkv : kv ∈ st''.state_info := hkv
      rw [hne1] at hkv
      rcases List.mem_append.mp hkv with hold | hnew
      · have hkcur : kv.1 ∈ st.current_states := h3 kv hold
        replace hc : st''.state_confidence.lookup kv.1 = some c := hc
        rw [hout.confEq kv.1 hkcur] at hc
        exact hcb.2 kv hold horig c hc
      · exfalso
        have hlk : st''.state_info.lookup kv.1 = some kv.2 := by
          apply lookup_of_mem_nodup wnd1
          rw [hne1]
          exact List.mem_append_right _ hnew
        have hkinfo : st.state_info.lookup kv.1 = none := by
          apply lookup_eq_none
          intro hk
          obtain ⟨kv', hkv', hfst⟩ := List.mem_map.mp hk
          exact (hne2 kv hnew).2.2 (hfst ▸ h3 kv' hkv')
        rcases hout.lookups kv.1 kv.2 hlk with hold2 | ⟨_, hns⟩
        · rw [hkinfo] at hold2
          cases hold2
        · obtain ⟨tg, viol, ab, dec, neg, hfieq, _⟩ := hns
          have hio : kv.2.origin = "inferred" := by rw [hfieq]
          rw [horig] at hio
          exact absurd hio (by decide)

/-- Firing a rule keeps event identifiers non-decreasing and bounded by the
store size. -/
theorem fireRule_ids (now : ℤ) (r : Rule) (st st' : St) (b : Bool)
    (hrun : fireRule now r st = .ok (st', b)) (hwf : WF st)
    (him : IdsMono st) (hil : IdsLe st) : IdsMono st' ∧ IdsLe st' := by
  rcases fireRule_cases now r st st' b hrun hwf with ⟨he, _⟩ | ⟨pt, st'', hct, hpreP, hout, hst'⟩
  · rw [he]
    exact ⟨him, hil⟩
  · subst hst'
    obtain ⟨newE, hne1, hne2, hne3⟩ := hout.news
    have hlastle : lastId st.state_info ≤ st.state_info.length := by
      by_cases hn : st.state_info = []
      · rw [hn]
        exact le_refl 0
      · obtain ⟨kv, hkv, hid⟩ := lastId_mem st.state_info hn
        rw [← hid]
        exact hil kv hkv
    constructor
    · show List.Pairwise (fun a b => a.2.event_id ≤ b.2.event_id) st''.state_info
      rw [hne1, List.pairwise_append]
      refine ⟨him, pairwise_const_le newE _ (fun kv hkv => (hne2 kv hkv).1), ?_⟩
      intro a ha bb hbb
      rw [(hne2 bb hbb).1]
      exact le_trans (pairwise_le_lastId _ him a ha) (Nat.le_succ _)
    · intro kv hkv
      replace hkv : kv ∈ st''.state_info := hkv
      show kv.2.event_id ≤ st''.state_info.length
      rw [hne1] at hkv ⊢
      rw [List.length_append]
      rcases List.mem_append.mp hkv with hold | hnew
      · exact le_trans (hil kv hold) (Nat.le_add_right _ _)
      · rw [(hne2 kv hnew).1]
        have hlen : 1 ≤ newE.length := by
          cases newE with
          | nil => simp at hnew
          | cons a l => simp
        omega

/-! ## Fixpoint lemmas (claim C5) -/

theorem CoreEq_trans {a b c : St} (h₁ : CoreEq a b) (h₂ : CoreEq b c) : CoreEq a c :=
  ⟨h₂.1.trans h₁.1, h₂.2.1.trans h₁.2.1, h₂.2.2.1.trans h₁.2.2.1,
   h₂.2.2.2.1.trans h₁.2.2.2.1, h₂.2.2.2.2.1.trans h₁.2.2.2.2.1,
   h₂.2.2.2.2.2.trans h₁.2.2.2.2.2⟩

theorem firePosts_flag_mono (now : ℤ) (r : Rule) (pt it : ℤ) (ec : ℕ) :
    ∀ (posts : List FactId) (st : St) (b : Bool) (st' : St) (b' : Bool),
    firePosts now r pt it ec posts st b = .ok (st', b') → b = true → b' = true := by
  intro posts
  induction posts with
  | nil =>
    intro st b st' b' hrun hb
    simp only [firePosts] at hrun
    injection hrun with h
    injection h with h1 h2
    rw [← h2, hb]
  | cons post rest ih =>
    intro st b st' b' hrun hb
    simp only [firePosts] at hrun
    by_cases hc : st.current_states.contains post = true
    · rw [if_pos hc] at hrun
      exact ih st b st' b' hrun hb
    · rw [if_neg hc] at hrun
      rcases htg : calculate_time_gap_penalty r pt it with e | pair
      · rw [htg] at hrun
        simp at hrun
      · obtain ⟨tg, viol⟩ := pair
        rw [htg] at hrun
        dsimp only at hrun
        by_cases hviol : viol = some "causality_violation"
        · rw [if_pos hviol] at hrun
          exact ih _ b st' b' hrun hb
        · rw [if_neg hviol] at hrun
          exact ih _ true st' b' hrun rfl

theorem firePosts_nochange (now : ℤ) (r : Rule) (pt it : ℤ) (ec : ℕ) (hit : pt ≤ it) :
    ∀ (posts : List FactId) (st : St) (b : Bool) (st' : St),
    firePosts now r pt it ec posts st b = .ok (st', false) → st' = st ∧ b = false := by
  intro posts
  induction posts with
  | nil =>
    intro st b st' hrun
    simp only [firePosts] at hrun
    injection hrun with h
    injection h with h1 h2
    exact ⟨h1.symm, h2⟩
  | cons post rest ih =>
    intro st b st' hrun
    simp only [firePosts] at hrun
    by_cases hc : st.current_states.contains post = true
    · rw [if_pos hc] at hrun
      exact ih st b st' hrun
    · rw [if_neg hc] at hrun
      rcases htg : calculate_time_gap_penalty r pt it with e | pair
      · rw [htg] at hrun
        simp at hrun
      · obtain ⟨tg, viol⟩ := pair
        rw [htg] at hrun
        dsimp only at hrun
        have hviol := tgp_not_viol r pt it hit tg viol htg
        rw [if_neg hviol] at hrun
        have := firePosts_flag_mono now r pt it ec rest _ true st' false hrun rfl
        cases this

theorem passRules_flag_mono (now : ℤ) :
    ∀ (rs : List Rule) (st : St) (b : Bool) (st' : St) (b' : Bool),
    passRules now rs st b = .ok (st', b') → b = true → b' = true := by
  intro rs
  induction rs with
  | nil =>
    intro st b st' b' hrun hb
    simp only [passRules] at hrun
    injection hrun with h
    injection h with h1 h2
    rw [← h2, hb]
  | cons r rest ih =>
    intro st b st' b' hrun hb
    simp only [passRules] at hrun
    rcases hfr : fireRule now r st with e | pair
    · rw [hfr] at hrun
      simp at hrun
    · obtain ⟨st₁, b1⟩ := pair
      rw [hfr] at hrun
      dsimp only at hrun
      apply ih st₁ (b || b1) st' b' hrun
      rw [hb]
      rfl

/-- A rule invocation that reports no progress leaves the core store alone
and only grows the applied-rule name list. -/
theorem fireRule_nochange (now : ℤ) (r : Rule) (st st' : St)
    (hrun : fireRule now r st = .ok (st', false)) :
    CoreEq st st' ∧
    (∀ n ∈ st.applied_rules.map AppliedRule.name,
      n ∈ st'.applied_rules.map AppliedRule.name) ∧
    ((st.applied_rules.map AppliedRule.name).contains r.name = true →
      (st'.applied_rules.map AppliedRule.name).contains r.name = true) := by
  unfold fireRule at hrun
  by_cases happ : ((st.applied_rules.map (·.name)).contains r.name) = true
  · rw [if_pos happ] at hrun
    injection hrun with h
    injection h with h1 h2
    rw [← h1]
    exact ⟨⟨rfl, rfl, rfl, rfl, rfl, rfl⟩, fun n hn => hn, fun h => h⟩
  · rw [if_neg happ] at hrun
    by_cases hall : (r.pre.all (fun p => st.current_states.contains p)) = true
    · rw [if_neg (by rw [hall]; simp)] at hrun
      rcases hct : check_temporal_causality st.state_info r.pre with ⟨bb, pt⟩
      rw [hct] at hrun
      cases bb with
      | false =>
        dsimp only at hrun
        injection hrun with h
        injection h with h1 h2
        rw [← h1]
        exact ⟨⟨rfl, rfl, rfl, rfl, rfl, rfl⟩, fun n hn => hn, fun h => h⟩
      | true =>
        dsimp only at hrun
        by_cases hviol : (r.post.any fun post =>
            match st.state_info.lookup post with
            | some fi => decide (fi.time < pt)
            | none => false) = true
        · rw [if_pos hviol] at hrun
          injection hrun with h
          injection h with h1 h2
          rw [← h1]
          exact ⟨⟨rfl, rfl, rfl, rfl, rfl, rfl⟩, fun n hn => hn, fun h => h⟩
        · rw [if_neg hviol] at hrun
          rcases hfp : firePosts now r pt (max pt now)
              (match st.state_info.getLast? with
               | some kv => kv.2.event_id + 1
               | none => 1) r.post st false with e | pair
          · rw [hfp] at hrun
            simp at hrun
          · obtain ⟨st'', added⟩ := pair
            rw [hfp] at hrun
            dsimp only at hrun
            injection hrun with h
            injection h with h1 h2
            have hadd : added = false := h2
            rw [hadd] at hfp
            obtain ⟨hse, _⟩ := firePosts_nochange now r pt (max pt now) _
              (le_max_left pt now) r.post st false st'' hfp
            subst hse
            rw [← h1]
            refine ⟨⟨rfl, rfl, rfl, rfl, rfl, rfl⟩, ?_, ?_⟩
            · intro n hn
              rw [List.map_append]
              exact List.mem_append_left _ hn
            · intro h
              rw [contains_iff_mem] at h ⊢
              rw [List.map_append]
              exact List.mem_append_left _ h
    · rw [if_pos (by rw [Bool.eq_false_iff.mpr hall]; rfl)] at hrun
      injection hrun with h
      injection h with h1 h2
      rw [← h1]
      exact ⟨⟨rfl, rfl, rfl, rfl, rfl, rfl⟩, fun n hn => hn, fun h => h⟩

/-- Re-examining, at any later wall clock, a rule that made no progress on a
store whose core has not changed since (and whose applied-name set has only
grown) again makes no progress and changes nothing. -/
theorem fireRule_rerun (now now' : ℤ) (r : Rule) (s s₁ s' : St)
    (hrun : fireRule now r s = .ok (s₁, false)) (hcore : CoreEq s s')
    (hmono : ∀ n ∈ s₁.applied_rules.map AppliedRule.name,
      n ∈ s'.applied_rules.map AppliedRule.name) :
    fireRule now' r s' = .ok (s', false) := by
  obtain ⟨hinfo, hconf, hcur, hlogs, hneg, hcnt⟩ := hcore
  unfold fireRule at hrun ⊢
  by_cases happ' : ((s'.applied_rules.map (·.name)).contains r.name) = true
  · rw [if_pos happ']
  · rw [if_neg happ']
    by_cases happ : ((s.applied_rules.map (·.name)).contains r.name) = true
    · exfalso
      rw [if_pos happ] at hrun
      injection hrun with h
      injection h with h1 h2
      apply happ'
      apply (contains_iff_mem _ _).mpr
      apply hmono
      rw [← h1]
      exact (contains_iff_mem _ _).mp happ
    · rw [if_neg happ] at hrun
      by_cases hall : (r.pre.all (fun p => s.current_states.contains p)) = true
      · rw [if_neg (by rw [hall]; simp)] at hrun
        rw [if_neg (by rw [hcur, hall]; simp)]
        rcases hct : check_temporal_causality s.state_info r.pre with ⟨bb, pt⟩
        rw [hct] at hrun
        rw [hinfo, hct]
        cases bb with
        | false => rfl
        | true =>
          dsimp only at hrun ⊢
          by_cases hviol : (r.post.any fun post =>
              match s.state_info.lookup post with
              | some fi => decide (fi.time < pt)
              | none => false) = true
          · rw [if_pos hviol] at hrun
            rw [if_pos hviol]
          · exfalso
            rw [if_neg hviol] at hrun
            rcases hfp : firePosts now r pt (max pt now)
                (match s.state_info.getLast? with
                 | some kv => kv.2.event_id + 1
                 | none => 1) r.post s false with e | pair
            · rw [hfp] at hrun
              simp at hrun
            · obtain ⟨s'', added⟩ := pair
              rw [hfp] at hrun
              dsimp only at hrun
              injection hrun with h
              injection h with h1 h2
              apply happ'
              apply (contains_iff_mem _ _).mpr
              apply hmono
              rw [← h1, List.map_append]
              apply List.mem_append_right
              exact List.mem_singleton_self _
      · rw [if_pos (by rw [hcur, Bool.eq_false_iff.mpr hall]; rfl)]

/-- A pass that reports no change leaves the core store alone, only grows the
applied-name list, and repeating it (at any wall clock) returns the store
unchanged with no change reported. -/
theorem pass_fixpoint (now now' : ℤ) :
    ∀ (rs : List Rule) (s s' : St), passRules now rs s false = .ok (s', false) →
    CoreEq s s' ∧
    (∀ n ∈ s.applied_rules.map AppliedRule.name,
      n ∈ s'.applied_rules.map AppliedRule.name) ∧
    passRules now' rs s' false = .ok (s', false) := by
  intro rs
  induction rs with
  | nil =>
    intro s s' hrun
    simp only [passRules] at hrun
    injection hrun with h
    injection h with h1 h2
    subst h1
    exact ⟨⟨rfl, rfl, rfl, rfl, rfl, rfl⟩, fun n hn => hn, rfl⟩
  | cons r rest ih =>
    intro s s' hrun
    simp only [passRules] at hrun
    rcases hfr : fireRule now r s with e | pair
    · rw [hfr] at hrun
      simp at hrun
    · obtain ⟨s₁, b1⟩ := pair
      rw [hfr] at hrun
      dsimp only at hrun
      have hb1 : b1 = false := by
        by_contra hb
        have hb' : b1 = true := by
          cases b1
          · exact absurd rfl hb
          · rfl
        have := passRules_flag_mono now rest s₁ (false || b1) s' false hrun
          (by rw [hb']; rfl)
        cases this
      rw [hb1] at hfr hrun
      obtain ⟨hcore₁, hmono₁, happc₁⟩ := fireRule_nochange now r s s₁ hfr
      obtain ⟨hcore₂, hmono₂, hrerun₂⟩ := ih s₁ s' hrun
      have hcore := CoreEq_trans hcore₁ hcore₂
      refine ⟨hcore, fun n hn => hmono₂ n (hmono₁ n hn), ?_⟩
      simp only [passRules]
      rw [fireRule_rerun now now' r s s₁ s' hfr hcore
        (fun n hn => hmono₂ n hn)]
      exact hrerun₂

/-- A successful fuelled while-loop ends with a pass that reports no change. -/
theorem runPasses_final (now : ℤ) (rules : List Rule) :
    ∀ (fuel : ℕ) (st st' : St), runPasses now rules fuel st = .ok st' →
    ∃ stp, passRules now rules stp false = .ok (st', false) := by
  intro fuel
  induction fuel with
  | zero =>
    intro st st' hrun
    simp only [runPasses] at hrun
    cases hrun
  | succ n ih =>
    intro st st' hrun
    simp only [runPasses] at hrun
    rcases hp : passRules now rules st false with e | pair
    · rw [hp] at hrun
      simp at hrun
    · obtain ⟨st₁, changed⟩ := pair
      rw [hp] at hrun
      dsimp only at hrun
      cases changed with
      | true =>
        rw [if_pos rfl] at hrun
        exact ih st₁ st' hrun
      | false =>
        rw [if_neg (by simp)] at hrun
        injection hrun with h
        rw [← h]
        exact ⟨st, hp⟩

/-- Claim C5: `run_inference` is idempotent.  Any store produced by a
successful run is a fixpoint: running inference again with the same rule set
(at any later wall-clock time) returns it unchanged — no fact is added, no
rule fires, no confidence changes. -/
theorem C5_idempotent (now now' : ℤ) (rules : List Rule) (st0 st1 : St)
    (hrun : run_inference now rules st0 = .ok st1) :
    run_inference now' rules st1 = .ok st1 := by
  obtain ⟨stp, hfinal⟩ := runPasses_final now rules _ st0 st1 hrun
  obtain ⟨_, _, hrerun⟩ := pass_fixpoint now now' rules stp st1 hfinal
  unfold run_inference
  simp only [runPasses]
  rw [hrerun]
  rfl

/-- Witness for C5: a run that fires one rule, then a second run at a later
wall clock that returns the store unchanged. -/
theorem C5_idempotent_witness :
    run_inference 0 [c2Rule] c9St = .ok c2res ∧
    run_inference 5 [c2Rule] c2res = .ok c2res :=
  ⟨rfl, C5_idempotent 0 5 [c2Rule] c9St c2res rfl⟩

/-! ## Pass- and run-level composition -/

theorem passRules_run (now : ℤ) (rules : List Rule) :
    ∀ (rs : List Rule), (∀ r ∈ rs, r ∈ rules) →
    ∀ (st : St) (b : Bool) (st' : St) (b' : Bool),
    passRules now rs st b = .ok (st', b') → WF st →
    RunOut now rules st st' ∧
    (TimesLE st now → TimesLE st' now) ∧
    (RulesOK rules → TimesLE st now → ConfBounds st → ConfBounds st') ∧
    (IdsMono st → IdsLe st → IdsMono st' ∧ IdsLe st') ∧
    (b' = true → b = true ∨ ∃ q, q ∈ st'.current_states ∧ q ∉ st.current_states ∧
      q ∈ (rules.map Rule.post).flatten) := by
  intro rs
  induction rs with
  | nil =>
    intro hsub st b st' b' hrun hwf
    simp only [passRules] at hrun
    injection hrun with h
    injection h with h1 h2
    subst h1
    refine ⟨RunOut.id now rules st hwf, id, fun _ _ hc => hc, fun h1 h2 => ⟨h1, h2⟩, ?_⟩
    intro hb
    rw [← h2] at hb
    exact Or.inl hb
  | cons r rest ih =>
    intro hsub st b st' b' hrun hwf
    simp only [passRules] at hrun
    rcases hfr : fireRule now r st with e | pair
    · rw [hfr] at hrun
      simp at hrun
    · obtain ⟨st₁, b1⟩ := pair
      rw [hfr] at hrun
      dsimp only at hrun
      have hr : r ∈ rules := hsub r (List.mem_cons_self _ _)
      have hro₁ := fireRule_runOut now rules r st st₁ b1 hr hfr hwf
      have hrest := ih (fun r' hr' => hsub r' (List.mem_cons_of_mem _ hr'))
        st₁ (b || b1) st' b' hrun hro₁.wf
      obtain ⟨hro₂, hts₂, hcb₂, hid₂, hprog₂⟩ := hrest
      refine ⟨hro₁.trans hro₂, ?_, ?_, ?_, ?_⟩
      · intro hts
        exact hts₂ (fireRule_times now r st st₁ b1 hfr hwf hts)
      · intro hok hts hcb
        exact hcb₂ hok (fireRule_times now r st st₁ b1 hfr hwf hts)
          (fireRule_bounds now r st st₁ b1 hfr hwf (hok r hr).1
            (fun T hT => (hok r hr).2 T hT) hts hcb)
      · intro him hil
        obtain ⟨him₁, hil₁⟩ := fireRule_ids now r st st₁ b1 hfr hwf him hil
        exact hid₂ him₁ hil₁
      · intro hb'
        rcases hprog₂ hb' with hb1 | ⟨q, hq1, hq2, hq3⟩
        · cases hb : b with
          | true => exact Or.inl rfl
          | false =>
            rw [hb] at hb1
            have hb1' : b1 = true := by
              cases b1
              · cases hb1
              · rfl
            obtain ⟨q, hq1, hq2, hq3⟩ :=
              fireRule_progress now r st st₁ b1 hfr hwf hb1'
            refine Or.inr ⟨q, hro₂.curMono q hq1, hq2, ?_⟩
            exact List.mem_flatten.mpr ⟨r.post, List.mem_map_of_mem Rule.post hr, hq3⟩
        · refine Or.inr ⟨q, hq1, fun hm => hq2 (hro₁.curMono q hm), hq3⟩

theorem runPasses_run (now : ℤ) (rules : List Rule) :
    ∀ (fuel : ℕ) (st st' : St), runPasses now rules fuel st = .ok st' → WF st →
    RunOut now rules st st' ∧
    (TimesLE st now → TimesLE st' now) ∧
    (RulesOK rules → TimesLE st now → ConfBounds st → ConfBounds st') ∧
    (IdsMono st → IdsLe st → IdsMono st' ∧ IdsLe st') := by
  intro fuel
  induction fuel with
  | zero =>
    intro st st' hrun
    simp only [runPasses] at hrun
    cases hrun
  | succ n ih =>
    intro st st' hrun hwf
    simp only [runPasses] at hrun
    rcases hp : passRules now rules st false with e | pair
    · rw [hp] at hrun
      simp at hrun
    · obtain ⟨st₁, changed⟩ := pair
      rw [hp] at hrun
      dsimp only at hrun
      obtain ⟨hro₁, hts₁, hcb₁, hid₁, _⟩ :=
        passRules_run now rules rules (fun r hr => hr) st false st₁ changed hp hwf
      cases changed with
      | true =>
        rw [if_pos rfl] at hrun
        obtain ⟨hro₂, hts₂, hcb₂, hid₂⟩ := ih st₁ st' hrun hro₁.wf
        refine ⟨hro₁.trans hro₂, fun h => hts₂ (hts₁ h), ?_, ?_⟩
        · intro hok hts hcb
          exact hcb₂ hok (hts₁ hts) (hcb₁ hok hts hcb)
        · intro him hil
          obtain ⟨him₁, hil₁⟩ := hid₁ him hil
          exact hid₂ him₁ hil₁
      | false =>
        rw [if_neg (by simp)] at hrun
        injection hrun with h
        subst h
        exact ⟨hro₁, hts₁, hcb₁, hid₁⟩

/-- The full-run contract of `run_inference` on a well-formed store. -/
theorem run_inference_spec (now : ℤ) (rules : List Rule) (st st' : St)
    (hrun : run_inference now rules st = .ok st') (hwf : WF st) :
    RunOut now rules st st' ∧
    (TimesLE st now → TimesLE st' now) ∧
    (RulesOK rules → TimesLE st now → ConfBounds st → ConfBounds st') ∧
    (IdsMono st → IdsLe st → IdsMono st' ∧ IdsLe st') :=
  runPasses_run now rules _ st st' hrun hwf

theorem wf_c9St : WF c9St := by
  refine ⟨by decide, by decide, ?_, ?_, ?_, ?_⟩ <;>
    · intro kv hkv
      fin_cases hkv
      simp [c9St, List.lookup]

/-- C2: every postcondition fact newly materialized by `run_inference` (present
in the output store, absent from the input store) has origin `inferred` and
stored confidence `min(rule.confidence, min parent confidence) × timeGapFactor
× absenceFactor × decayFactor × negativeFactor`, each factor given by the
corresponding source function. -/
theorem C2_new_fact_confidence (now : ℤ) (rules : List Rule) (st st' : St)
    (hrun : run_inference now rules st = .ok st') (hwf : WF st)
    (k : FactId) (fi : FactInfo) (hlk : st'.state_info.lookup k = some fi)
    (hnew : st.state_info.lookup k = none) :
    fi.origin = "inferred" ∧ C2Fact now rules st' k fi := by
  have hro := (run_inference_spec now rules st st' hrun hwf).1
  rcases hro.inferredNew k fi hlk with hold | ⟨_, ho, hc⟩
  · rw [hnew] at hold
    cases hold
  · exact ⟨ho, hc⟩

theorem C2_new_fact_confidence_witness :
    run_inference 0 [c2Rule] c9St = .ok c2res ∧
    c9St.state_info.lookup "q" = none ∧
    c2res.state_info.lookup "q" = some c2fi ∧
    (c2fi.origin = "inferred" ∧ C2Fact 0 [c2Rule] c2res "q" c2fi) :=
  ⟨rfl, rfl, rfl,
    C2_new_fact_confidence 0 [c2Rule] c9St c2res rfl wf_c9St "q" c2fi rfl rfl⟩

/-! ## Membership in `dinsert`, fold preservation, signal shapes -/

theorem mem_dinsert {α : Type} {m : List (FactId × α)} {k : FactId} {v : α}
    {kv : FactId × α} (h : kv ∈ dinsert m k v) :
    (kv ∈ m ∧ ¬ kv.1 = k) ∨ kv = (k, v) := by
  unfold dinsert at h
  by_cases hany : (m.any (fun kv => kv.1 == k)) = true
  · rw [if_pos hany] at h
    obtain ⟨kv0, hkv0, he⟩ := List.mem_map.mp h
    by_cases hb : (kv0.1 == k) = true
    · rw [if_pos hb] at he
      exact Or.inr he.symm
    · rw [if_neg hb] at he
      subst he
      exact Or.inl ⟨hkv0, fun hc => hb (by rw [hc]; simp)⟩
  · rw [if_neg hany] at h
    rcases List.mem_append.mp h with hm | hs
    · refine Or.inl ⟨hm, fun hc => hany ?_⟩
      exact List.any_eq_true.mpr ⟨kv, hm, by rw [hc]; simp⟩
    · exact Or.inr (List.mem_singleton.mp hs)

theorem foldl_pres_mem {α β : Type} (P : β → Prop) (f : β → α → β) :
    ∀ (l : List α) (b : β), P b → (∀ b a, a ∈ l → P b → P (f b a)) → P (l.foldl f b) := by
  intro l
  induction l with
  | nil => intro b hb _; exact hb
  | cons a t ih =>
    intro b hb hstep
    exact ih (f b a) (hstep b a (List.mem_cons_self a t) hb)
      (fun b' a' ha' => hstep b' a' (List.mem_cons_of_mem a ha'))

theorem extract_signals_head (log : LogEntry) :
    ∀ s ∈ extract_signals log, s.data.head? ≠ some 'l' := by
  intro s hs
  unfold extract_signals at hs
  rcases List.mem_append.mp hs with h | h
  · rcases List.mem_append.mp h with h | h
    · rcases List.mem_append.mp h with h | h
      · split at h
        · rcases List.mem_singleton.mp h with rfl
          rw [String.data_append]
          intro hc
          cases hc
        · cases h
      · split at h
        · rcases List.mem_singleton.mp h with rfl
          rw [String.data_append]
          intro hc
          cases hc
        · cases h
    · split at h
      · rcases List.mem_singleton.mp h with rfl
        rw [String.data_append]
        intro hc
        cases hc
      · cases h
  · split at h
    · rcases List.mem_singleton.mp h with rfl
      rw [String.data_append]
      intro hc
      cases hc
    · cases h

theorem negFoldl_fields (log : LogEntry) :
    ∀ (l : List FactId) (st : St),
    (l.foldl (fun st n =>
        { st with negative_evidence := appendNeg st.negative_evidence n log }) st).state_info
        = st.state_info ∧
    (l.foldl (fun st n =>
        { st with negative_evidence := appendNeg st.negative_evidence n log }) st).state_confidence
        = st.state_confidence ∧
    (l.foldl (fun st n =>
        { st with negative_evidence := appendNeg st.negative_evidence n log }) st).current_states
        = st.current_states := by
  intro l
  induction l with
  | nil => intro st; exact ⟨rfl, rfl, rfl⟩
  | cons a t ih => intro st; exact ih _

theorem core_transfer (a b : St) (hinfo : b.state_info = a.state_info)
    (hconf : b.state_confidence = a.state_confidence)
    (hcur : b.current_states = a.current_states) :
    (WF a → WF b) ∧ (ConfBounds a → ConfBounds b) ∧ (ObsInv a → ObsInv b) := by
  unfold WF ConfBounds ObsInv
  rw [hinfo, hconf, hcur]
  exact ⟨id, id, id⟩

theorem ingestNew_core (b : St) (s : FactId) (fi : FactInfo) (e : ℕ) (b' : St)
    (heq : b' = { b with
      event_counter := e,
      state_info := b.state_info ++ [(s, fi)],
      state_confidence := dinsert b.state_confidence s 1.0,
      current_states := sadd b.current_states s })
    (hnone : b.state_info.lookup s = none) (hwf : WF b)
    (horig : fi.origin = "log") (hs : s.data.head? ≠ some 'l') :
    WF b' ∧ (ConfBounds b → ConfBounds b') ∧ (ObsInv b → ObsInv b') := by
  obtain ⟨hnd1, hnd2, hic, hci, hcc, hcf⟩ := hwf
  have hsinfo : s ∉ keysOf b.state_info := by
    intro hk
    have h1 := (lookup_isSome_iff b.state_info s).mpr hk
    rw [hnone] at h1
    cases h1
  have hsconf : s ∉ keysOf b.state_confidence := by
    intro hk
    obtain ⟨c, hc⟩ := Option.isSome_iff_exists.mp ((lookup_isSome_iff _ s).mpr hk)
    have := hcf (s, c) (lookup_mem hc)
    rw [hnone] at this
    cases this
  have hmemi : ∀ kv : FactId × FactInfo, kv ∈ b'.state_info →
      (kv ∈ b.state_info ∧ ¬ kv.1 = s) ∨ kv = (s, fi) := by
    intro kv hkv
    rw [heq] at hkv
    rcases List.mem_append.mp hkv with hm | hm
    · refine Or.inl ⟨hm, fun hc => hsinfo ?_⟩
      rw [← hc]
      exact List.mem_map_of_mem Prod.fst hm
    · exact Or.inr (List.mem_singleton.mp hm)
  have hlookc : ∀ k : FactId, ¬ k = s →
      b'.state_confidence.lookup k = b.state_confidence.lookup k := by
    intro k hk
    rw [heq]
    exact dinsert_lookup_ne _ s k 1.0 hk
  have hlooki_s : b'.state_info.lookup s = some fi := by
    rw [heq]
    show List.lookup s (b.state_info ++ [(s, fi)]) = some fi
    rw [lookup_append, hnone]
    dsimp only
    exact lookup_cons_pos (s, fi) [] (by simp)
  have hlooki_old : ∀ k v, b.state_info.lookup k = some v →
      b'.state_info.lookup k = some v := by
    intro k v hv
    rw [heq]
    show List.lookup k (b.state_info ++ [(s, fi)]) = some v
    rw [lookup_append, hv]
  refine ⟨⟨?_, ?_, ?_, ?_, ?_, ?_⟩, ?_, ?_⟩
  · rw [heq]
    show (keysOf (b.state_info ++ [(s, fi)])).Nodup
    unfold keysOf
    rw [List.map_append]
    simp only [List.map_cons, List.map_nil]
    refine List.Nodup.append hnd1 (List.nodup_singleton s) ?_
    intro x hx hx2
    rw [List.mem_singleton.mp hx2] at hx
    exact hsinfo hx
  · rw [heq]
    exact nodup_dinsert _ s 1.0 hnd2
  · intro kv hkv
    rcases hmemi kv hkv with ⟨hm, _⟩ | hm
    · rw [heq]
      exact mem_sadd_of_mem _ s kv.1 (hic kv hm)
    · rw [heq, hm]
      exact sadd_mem_self _ s
  · intro c hc
    rw [heq] at hc
    rcases (mem_sadd_iff _ s c).mp hc with hm | he
    · obtain ⟨v, hv⟩ := Option.isSome_iff_exists.mp (hci c hm)
      rw [hlooki_old c v hv]
      rfl
    · subst he
      rw [hlooki_s]
      rfl
  · intro c hc
    rw [heq] at hc ⊢
    rcases (mem_sadd_iff _ s c).mp hc with hm | he
    · by_cases hcs : c = s
      · subst hcs
        rw [dinsert_lookup_self]
        rfl
      · rw [dinsert_lookup_ne _ s c 1.0 hcs]
        exact hcc c hm
    · subst he
      rw [dinsert_lookup_self]
      rfl
  · intro kv hkv
    rw [heq] at hkv
    rcases mem_dinsert hkv with ⟨hm, _⟩ | hm
    · obtain ⟨v, hv⟩ := Option.isSome_iff_exists.mp (hcf kv hm)
      rw [hlooki_old kv.1 v hv]
      rfl
    · rw [hm]
      show (b'.state_info.lookup s).isSome = true
      rw [hlooki_s]
      rfl
  · rintro ⟨hb1, hb2⟩
    constructor
    · intro kv hkv
      rw [heq] at hkv
      rcases mem_dinsert hkv with ⟨hm, _⟩ | hm
      · exact hb1 kv hm
      · rw [hm]
        norm_num
    · intro kv hkv hhyp c hcl
      rcases hmemi kv hkv with ⟨hm, hne⟩ | hm
      · rw [hlookc kv.1 hne] at hcl
        exact hb2 kv hm hhyp c hcl
      · rw [hm] at hhyp
        rw [horig] at hhyp
        exact absurd hhyp (by decide)
  · rintro ⟨ho1, ho2⟩
    constructor
    · intro kv hkv hlg
      rcases hmemi kv hkv with ⟨hm, hne⟩ | hm
      · rw [hlookc kv.1 hne]
        exact ho1 kv hm hlg
      · rw [hm, heq]
        exact dinsert_lookup_self _ s 1.0
    · intro kv hkv hlg
      rcases hmemi kv hkv with ⟨hm, _⟩ | hm
      · exact ho2 kv hm hlg
      · rw [hm]
        exact hs

theorem sigFoldl_core (log : LogEntry) (st2 : St) (hwf : WF st2) :
    WF ((extract_signals log).foldl
      (fun st s =>
        if (st.state_info.lookup s).isSome then st
        else
          { st with
            event_counter := st.event_counter + 1,
            state_info := st.state_info ++
              [(s, { origin := "log", evidence := .logs [log],
                     event_id := st.event_counter + 1, time := log.timestamp })],
            state_confidence := dinsert st.state_confidence s 1.0,
            current_states := sadd st.current_states s }) st2) ∧
    (ConfBounds st2 → ConfBounds ((extract_signals log).foldl
      (fun st s =>
        if (st.state_info.lookup s).isSome then st
        else
          { st with
            event_counter := st.event_counter + 1,
            state_info := st.state_info ++
              [(s, { origin := "log", evidence := .logs [log],
                     event_id := st.event_counter + 1, time := log.timestamp })],
            state_confidence := dinsert st.state_confidence s 1.0,
            current_states := sadd st.current_states s }) st2)) ∧
    (ObsInv st2 → ObsInv ((extract_signals log).foldl
      (fun st s =>
        if (st.state_info.lookup s).isSome then st
        else
          { st with
            event_counter := st.event_counter + 1,
            state_info := st.state_info ++
              [(s, { origin := "log", evidence := .logs [log],
                     event_id := st.event_counter + 1, time := log.timestamp })],
            state_confidence := dinsert st.state_confidence s 1.0,
            current_states := sadd st.current_states s }) st2)) := by
  refine foldl_pres_mem
    (fun b => WF b ∧ (ConfBounds st2 → ConfBounds b) ∧ (ObsInv st2 → ObsInv b))
    _ (extract_signals log) st2 ⟨hwf, id, id⟩ ?_
  intro b s hs ⟨hwfb, hcb, hob⟩
  by_cases hsome : (b.state_info.lookup s).isSome = true
  · rw [if_pos hsome]
    exact ⟨hwfb, hcb, hob⟩
  · rw [if_neg hsome]
    have hnone : b.state_info.lookup s = none := Option.not_isSome_iff_eq_none.mp hsome
    obtain ⟨h1, h2, h3⟩ := ingestNew_core b s
      { origin := "log", evidence := .logs [log],
        event_id := b.event_counter + 1, time := log.timestamp }
      (b.event_counter + 1) _ rfl hnone hwfb rfl (extract_signals_head log s hs)
    exact ⟨h1, fun hc => h2 (hcb hc), fun ho => h3 (hob ho)⟩

theorem ingestLog_core (st : St) (log : LogEntry) (hwf : WF st) :
    WF (ingestLog st log) ∧
    (ConfBounds st → ConfBounds (ingestLog st log)) ∧
    (ObsInv st → ObsInv (ingestLog st log)) := by
  unfold ingestLog
  obtain ⟨e1, e2, e3⟩ := negFoldl_fields log (extract_negative_signals log)
    { st with observed_logs := st.observed_logs ++ [log] }
  obtain ⟨t1, t2, t3⟩ := core_transfer st _ e1 e2 e3
  obtain ⟨h1, h2, h3⟩ := sigFoldl_core log _ (t1 hwf)
  exact ⟨h1, fun hc => h2 (t2 hc), fun ho => h3 (t3 ho)⟩

theorem ingest_logs_core (batch : List LogEntry) (st : St) (hwf : WF st) :
    WF (ingest_logs batch st) ∧
    (ConfBounds st → ConfBounds (ingest_logs batch st)) ∧
    (ObsInv st → ObsInv (ingest_logs batch st)) := by
  unfold ingest_logs
  refine foldl_pres_mem
    (fun b => WF b ∧ (ConfBounds st → ConfBounds b) ∧ (ObsInv st → ObsInv b))
    ingestLog batch st ⟨hwf, id, id⟩ ?_
  intro b log _ ⟨hwfb, hcb, hob⟩
  obtain ⟨h1, h2, h3⟩ := ingestLog_core b log hwfb
  exact ⟨h1, fun hc => h2 (hcb hc), fun ho => h3 (hob ho)⟩

theorem scanGaps_conf (current : List FactId) :
    ∀ (l : List (FactId × FactInfo)) (h : HypWip), h ∈ scanGaps current l →
    0 ≤ h.confidence ∧ h.confidence ≤ 0.3 := by
  intro l
  induction l with
  | nil => intro h hm; cases hm
  | cons kv rest ih =>
    intro h hm
    unfold scanGaps at hm
    rcases List.mem_append.mp hm with hm | hm
    · split at hm
      · dsimp only at hm
        rcases List.mem_append.mp hm with hm | hm
        · split at hm
          · split at hm
            · cases hm
            · rcases List.mem_singleton.mp hm with rfl
              norm_num
          · cases hm
        · split at hm
          · split at hm
            · cases hm
            · rcases List.mem_singleton.mp hm with rfl
              norm_num
          · cases hm
      · cases hm
    · exact ih h hm

theorem applyHyp_core (now : ℤ) (b : St) (h : HypWip)
    (hwf : WF b) (hc : 0 ≤ h.confidence ∧ h.confidence ≤ 0.3) :
    WF (applyHyp now b h) ∧
    (ConfBounds b → ConfBounds (applyHyp now b h)) ∧
    (ObsInv b → ObsInv (applyHyp now b h)) := by
  obtain ⟨hnd1, hnd2, hic, hci, hcc, hcf⟩ := hwf
  have hmemi : ∀ kv : FactId × FactInfo, kv ∈ (applyHyp now b h).state_info →
      (kv ∈ b.state_info ∧ ¬ kv.1 = h.state) ∨
      kv = (h.state, { origin := "hypothetical", evidence := .hyp h.reason h.mechanism,
                       event_id := b.state_info.length + 1, time := now }) := by
    intro kv hkv
    exact mem_dinsert hkv
  have hlookc : ∀ k : FactId, ¬ k = h.state →
      (applyHyp now b h).state_confidence.lookup k = b.state_confidence.lookup k :=
    fun k hk => dinsert_lookup_ne _ h.state k h.confidence hk
  have hlooki : ∀ k : FactId, ¬ k = h.state →
      (applyHyp now b h).state_info.lookup k = b.state_info.lookup k :=
    fun k hk => dinsert_lookup_ne _ h.state k _ hk
  refine ⟨⟨?_, ?_, ?_, ?_, ?_, ?_⟩, ?_, ?_⟩
  · exact nodup_dinsert _ h.state _ hnd1
  · exact nodup_dinsert _ h.state _ hnd2
  · intro kv hkv
    rcases hmemi kv hkv with ⟨hm, _⟩ | hm
    · exact mem_sadd_of_mem _ h.state kv.1 (hic kv hm)
    · rw [hm]
      exact sadd_mem_self _ h.state
  · intro c hc2
    rcases (mem_sadd_iff _ h.state c).mp hc2 with hm | he
    · by_cases hcs : c = h.state
      · subst hcs
        show (List.lookup h.state (dinsert b.state_info h.state _)).isSome = true
        rw [dinsert_lookup_self]
        rfl
      · rw [hlooki c hcs]
        exact hci c hm
    · subst he
      show (List.lookup h.state (dinsert b.state_info h.state _)).isSome = true
      rw [dinsert_lookup_self]
      rfl
  · intro c hc2
    rcases (mem_sadd_iff _ h.state c).mp hc2 with hm | he
    · by_cases hcs : c = h.state
      · subst hcs
        show (List.lookup h.state (dinsert b.state_confidence h.state _)).isSome = true
        rw [dinsert_lookup_self]
        rfl
      · rw [hlookc c hcs]
        exact hcc c hm
    · subst he
      show (List.lookup h.state (dinsert b.state_confidence h.state _)).isSome = true
      rw [dinsert_lookup_self]
      rfl
  · intro kv hkv
    rcases mem_dinsert hkv with ⟨hm, hne⟩ | hm
    · rw [hlooki kv.1 hne]
      exact hcf kv hm
    · rw [hm]
      show ((applyHyp now b h).state_info.lookup h.state).isSome = true
      rw [show (applyHyp now b h).state_info = dinsert b.state_info h.state _ from rfl,
        dinsert_lookup_self]
      rfl
  · rintro ⟨hb1, hb2⟩
    constructor
    · intro kv hkv
      rcases mem_dinsert hkv with ⟨hm, _⟩ | hm
      · exact hb1 kv hm
      · rw [hm]
        exact ⟨hc.1, le_trans hc.2 (by norm_num)⟩
    · intro kv hkv hhyp c hcl
      rcases hmemi kv hkv with ⟨hm, hne⟩ | hm
      · rw [hlookc kv.1 hne] at hcl
        exact hb2 kv hm hhyp c hcl
      · rw [hm] at hcl
        rw [show (applyHyp now b h).state_confidence
            = dinsert b.state_confidence h.state h.confidence from rfl] at hcl
        rw [dinsert_lookup_self] at hcl
        injection hcl with hcl
        rw [← hcl]
        exact hc.2
  · rintro ⟨ho1, ho2⟩
    constructor
    · intro kv hkv hlg
      rcases hmemi kv hkv with ⟨hm, hne⟩ | hm
      · rw [hlookc kv.1 hne]
        exact ho1 kv hm hlg
      · rw [hm] at hlg
        dsimp only at hlg
        exact absurd hlg (by decide)
    · intro kv hkv hlg
      rcases hmemi kv hkv with ⟨hm, _⟩ | hm
      · exact ho2 kv hm hlg
      · rw [hm] at hlg
        dsimp only at hlg
        exact absurd hlg (by decide)

theorem infer_missing_core (now : ℤ) (rules : List Rule) (st : St) (hwf : WF st) :
    WF (infer_missing_steps now rules st).1 ∧
    (ConfBounds st → ConfBounds (infer_missing_steps now rules st).1) ∧
    (ObsInv st → ObsInv (infer_missing_steps now rules st).1) := by
  unfold infer_missing_steps
  refine foldl_pres_mem
    (fun b => WF b ∧ (ConfBounds st → ConfBounds b) ∧ (ObsInv st → ObsInv b))
    (applyHyp now) (scanGaps st.current_states st.state_info) st ⟨hwf, id, id⟩ ?_
  intro b h hm ⟨hwfb, hcb, hob⟩
  obtain ⟨h1, h2, h3⟩ := applyHyp_core now b h hwfb (scanGaps_conf st.current_states _ h hm)
  exact ⟨h1, fun hc => h2 (hcb hc), fun ho => h3 (hob ho)⟩

theorem run_inference_obs (now : ℤ) (rules : List Rule) (st st' : St)
    (hrun : run_inference now rules st = .ok st') (hwf : WF st) (hobs : ObsInv st) :
    ObsInv st' := by
  obtain ⟨hro, -, -, -⟩ := run_inference_spec now rules st st' hrun hwf
  obtain ⟨ho1, ho2⟩ := hobs
  have hnd := hro.wf.1
  constructor
  · intro kv hkv hlg
    have hlk : st'.state_info.lookup kv.1 = some kv.2 := lookup_of_mem_nodup hnd hkv
    rcases hro.inferredNew kv.1 kv.2 hlk with hold | ⟨-, horg, -⟩
    · have hmem := lookup_mem hold
      have hcur := hwf.2.2.1 (kv.1, kv.2) hmem
      have hsome := hwf.2.2.2.2.1 kv.1 hcur
      rw [hro.confPersist kv.1 hsome]
      exact ho1 (kv.1, kv.2) hmem hlg
    · rw [horg] at hlg
      exact absurd hlg (by decide)
  · intro kv hkv hlg
    have hlk : st'.state_info.lookup kv.1 = some kv.2 := lookup_of_mem_nodup hnd hkv
    rcases hro.inferredNew kv.1 kv.2 hlk with hold | ⟨-, horg, -⟩
    · exact ho2 (kv.1, kv.2) (lookup_mem hold) hlg
    · rw [horg] at hlg
      exact absurd hlg (by decide)

theorem wf_empty : WF emptySt := by
  refine ⟨List.nodup_nil, List.nodup_nil, ?_, ?_, ?_, ?_⟩ <;>
    exact fun x hx => absurd hx (List.not_mem_nil x)

theorem cb_empty : ConfBounds emptySt :=
  ⟨fun x hx => absurd hx (List.not_mem_nil x),
   fun x hx => absurd hx (List.not_mem_nil x)⟩

theorem obs_empty : ObsInv emptySt :=
  ⟨fun x hx => absurd hx (List.not_mem_nil x),
   fun x hx => absurd hx (List.not_mem_nil x)⟩

theorem opseq_wf_obs (a b : St) (h : OpSeq a b) :
    WF a → ObsInv a → WF b ∧ ObsInv b := by
  induction h with
  | refl st => exact fun hwf hobs => ⟨hwf, hobs⟩
  | ingest batch h ih =>
    intro hwf hobs
    obtain ⟨hwfb, hobsb⟩ := ih hwf hobs
    obtain ⟨h1, -, h3⟩ := ingest_logs_core batch _ hwfb
    exact ⟨h1, h3 hobsb⟩
  | infer now rules h hrun ih =>
    intro hwf hobs
    obtain ⟨hwfb, hobsb⟩ := ih hwf hobs
    exact ⟨((run_inference_spec now rules _ _ hrun hwfb).1).wf,
      run_inference_obs now rules _ _ hrun hwfb hobsb⟩
  | missing now rules h ih =>
    intro hwf hobs
    obtain ⟨hwfb, hobsb⟩ := ih hwf hobs
    obtain ⟨h1, -, h3⟩ := infer_missing_core now rules _ hwfb
    exact ⟨h1, h3 hobsb⟩

theorem opseqT_wf_cb (a b : St) (h : OpSeqT a b) :
    WF a → ConfBounds a → WF b ∧ ConfBounds b := by
  induction h with
  | refl st => exact fun hwf hcb => ⟨hwf, hcb⟩
  | ingest batch h ih =>
    intro hwf hcb
    obtain ⟨hwfb, hcbb⟩ := ih hwf hcb
    obtain ⟨h1, h2, -⟩ := ingest_logs_core batch _ hwfb
    exact ⟨h1, h2 hcbb⟩
  | infer now rules h hrules hts hrun ih =>
    intro hwf hcb
    obtain ⟨hwfb, hcbb⟩ := ih hwf hcb
    obtain ⟨hro, -, hcbp, -⟩ := run_inference_spec now rules _ _ hrun hwfb
    exact ⟨hro.wf, hcbp hrules hts hcbb⟩
  | missing now rules h ih =>
    intro hwf hcb
    obtain ⟨hwfb, hcbb⟩ := ih hwf hcb
    obtain ⟨h1, h2, -⟩ := infer_missing_core now rules _ hwfb
    exact ⟨h1, h2 hcbb⟩

/-- C7 (amended): after any sequence of ingestion, inference and missing-step
operations starting from the empty store — with each inference step run on
a sane rule set and at a wall clock not preceding any stored event timestamp
(the restriction the counterexample `C7_counterexample` shows is necessary:
a future-timestamped log makes the decay factor exceed `1`) — every stored
confidence lies in `[0, 1]` and every hypothetical-origin fact has
confidence at most `0.3`. -/
theorem C7_conf_bounds_amended (st : St) (h : OpSeqT emptySt st) :
    ConfBounds st :=
  (opseqT_wf_cb emptySt st h wf_empty cb_empty).2

theorem C7_conf_bounds_amended_witness :
    ConfBounds (infer_missing_steps 9000 [] (ingest_logs [c7Log] emptySt)).1 :=
  C7_conf_bounds_amended _
    (OpSeqT.missing 9000 []
      (OpSeqT.ingest [c7Log] (OpSeqT.refl emptySt)))

/-- C10: every fact of observed (log) origin keeps confidence exactly `1.0`
through any sequence of ingestion (which also records negative evidence),
inference and missing-step operations from the empty store. -/
theorem C10_observed_confidence (st : St) (h : OpSeq emptySt st) :
    ∀ kv ∈ st.state_info, kv.2.origin = "log" →
    st.state_confidence.lookup kv.1 = some 1.0 :=
  ((opseq_wf_obs emptySt st h wf_empty obs_empty).2).1

theorem C10_observed_confidence_witness :
    ("user_access:A",
        ({ origin := "log", evidence := .logs [c7Log], event_id := 1, time := 8200 } : FactInfo))
      ∈ (ingest_logs [c7Log] emptySt).state_info ∧
    (ingest_logs [c7Log] emptySt).state_confidence.lookup "user_access:A" = some 1.0 :=
  ⟨List.mem_singleton.mpr rfl,
   C10_observed_confidence _ (OpSeq.ingest [c7Log] (OpSeq.refl emptySt))
     ("user_access:A",
        { origin := "log", evidence := .logs [c7Log], event_id := 1, time := 8200 })
     (List.mem_singleton.mpr rfl) rfl⟩

theorem dinsert_not_mem {α : Type} (m : List (FactId × α)) (k : FactId) (v : α)
    (h : k ∉ keysOf m) : dinsert m k v = m ++ [(k, v)] := by
  unfold dinsert
  rw [if_neg (fun hc => h ((any_key_iff_mem m k).mp hc))]

theorem negFoldl_counter (log : LogEntry) :
    ∀ (l : List FactId) (st : St),
    (l.foldl (fun st n =>
        { st with negative_evidence := appendNeg st.negative_evidence n log }) st).event_counter
        = st.event_counter := by
  intro l
  induction l with
  | nil => intro st; rfl
  | cons a t ih => intro st; exact ih _

theorem ingestNew_ids (b : St) (s : FactId) (fi : FactInfo) (b' : St)
    (heq : b' = { b with
      event_counter := b.event_counter + 1,
      state_info := b.state_info ++ [(s, fi)],
      state_confidence := dinsert b.state_confidence s 1.0,
      current_states := sadd b.current_states s })
    (hid : fi.event_id = b.event_counter + 1)
    (hmono : IdsMono b) (hctr : ∀ kv ∈ b.state_info, kv.2.event_id ≤ b.event_counter)
    (hlen : b.event_counter ≤ b.state_info.length) :
    IdsMono b' ∧ (∀ kv ∈ b'.state_info, kv.2.event_id ≤ b'.event_counter) ∧
    b'.event_counter ≤ b'.state_info.length := by
  subst heq
  refine ⟨?_, ?_, ?_⟩
  · show List.Pairwise _ (b.state_info ++ [(s, fi)])
    rw [List.pairwise_append]
    refine ⟨hmono, List.pairwise_singleton _ _, ?_⟩
    intro x hx y hy
    rw [List.mem_singleton.mp hy, hid]
    exact le_trans (hctr x hx) (Nat.le_succ _)
  · intro kv hkv
    show kv.2.event_id ≤ b.event_counter + 1
    rcases List.mem_append.mp hkv with hm | hm
    · exact le_trans (hctr kv hm) (Nat.le_succ _)
    · rw [List.mem_singleton.mp hm, hid]
  · show b.event_counter + 1 ≤ (b.state_info ++ [(s, fi)]).length
    rw [List.length_append, List.length_singleton]
    exact Nat.add_le_add_right hlen 1

theorem sigFoldl_ids (log : LogEntry) (st2 : St)
    (hmono : IdsMono st2) (hctr : ∀ kv ∈ st2.state_info, kv.2.event_id ≤ st2.event_counter)
    (hlen : st2.event_counter ≤ st2.state_info.length) :
    IdsMono ((extract_signals log).foldl
      (fun st s =>
        if (st.state_info.lookup s).isSome then st
        else
          { st with
            event_counter := st.event_counter + 1,
            state_info := st.state_info ++
              [(s, { origin := "log", evidence := .logs [log],
                     event_id := st.event_counter + 1, time := log.timestamp })],
            state_confidence := dinsert st.state_confidence s 1.0,
            current_states := sadd st.current_states s }) st2) ∧
    (∀ kv ∈ ((extract_signals log).foldl
      (fun st s =>
        if (st.state_info.lookup s).isSome then st
        else
          { st with
            event_counter := st.event_counter + 1,
            state_info := st.state_info ++
              [(s, { origin := "log", evidence := .logs [log],
                     event_id := st.event_counter + 1, time := log.timestamp })],
            state_confidence := dinsert st.state_confidence s 1.0,
            current_states := sadd st.current_states s }) st2).state_info,
      kv.2.event_id ≤ ((extract_signals log).foldl
      (fun st s =>
        if (st.state_info.lookup s).isSome then st
        else
          { st with
            event_counter := st.event_counter + 1,
            state_info := st.state_info ++
              [(s, { origin := "log", evidence := .logs [log],
                     event_id := st.event_counter + 1, time := log.timestamp })],
            state_confidence := dinsert st.state_confidence s 1.0,
            current_states := sadd st.current_states s }) st2).event_counter) ∧
    ((extract_signals log).foldl
      (fun st s =>
        if (st.state_info.lookup s).isSome then st
        else
          { st with
            event_counter := st.event_counter + 1,
            state_info := st.state_info ++
              [(s, { origin := "log", evidence := .logs [log],
                     event_id := st.event_counter + 1, time := log.timestamp })],
            state_confidence := dinsert st.state_confidence s 1.0,
            current_states := sadd st.current_states s }) st2).event_counter ≤
    ((extract_signals log).foldl
      (fun st s =>
        if (st.state_info.lookup s).isSome then st
        else
          { st with
            event_counter := st.event_counter + 1,
            state_info := st.state_info ++
              [(s, { origin := "log", evidence := .logs [log],
                     event_id := st.event_counter + 1, time := log.timestamp })],
            state_confidence := dinsert st.state_confidence s 1.0,
            current_states := sadd st.current_states s }) st2).state_info.length := by
  refine foldl_pres_mem
    (fun b => IdsMono b ∧ (∀ kv ∈ b.state_info, kv.2.event_id ≤ b.event_counter) ∧
      b.event_counter ≤ b.state_info.length)
    _ (extract_signals log) st2 ⟨hmono, hctr, hlen⟩ ?_
  intro b s _ ⟨h1, h2, h3⟩
  by_cases hsome : (b.state_info.lookup s).isSome = true
  · rw [if_pos hsome]
    exact ⟨h1, h2, h3⟩
  · rw [if_neg hsome]
    exact ingestNew_ids b s _ _ rfl rfl h1 h2 h3

theorem ingestLog_ids (st : St) (log : LogEntry)
    (hmono : IdsMono st) (hctr : ∀ kv ∈ st.state_info, kv.2.event_id ≤ st.event_counter)
    (hlen : st.event_counter ≤ st.state_info.length) :
    IdsMono (ingestLog st log) ∧
    (∀ kv ∈ (ingestLog st log).state_info, kv.2.event_id ≤ (ingestLog st log).event_counter) ∧
    (ingestLog st log).event_counter ≤ (ingestLog st log).state_info.length := by
  unfold ingestLog
  obtain ⟨e1, -, -⟩ := negFoldl_fields log (extract_negative_signals log)
    { st with observed_logs := st.observed_logs ++ [log] }
  have e4 := negFoldl_counter log (extract_negative_signals log)
    { st with observed_logs := st.observed_logs ++ [log] }
  refine sigFoldl_ids log _ ?_ ?_ ?_
  · show List.Pairwise _ _
    rw [e1]
    exact hmono
  · intro kv hkv
    rw [e1] at hkv
    rw [e4]
    exact hctr kv hkv
  · rw [e1, e4]
    exact hlen

theorem ingest_logs_ids (batch : List LogEntry) (st : St)
    (hmono : IdsMono st) (hctr : ∀ kv ∈ st.state_info, kv.2.event_id ≤ st.event_counter)
    (hlen : st.event_counter ≤ st.state_info.length) :
    IdsMono (ingest_logs batch st) ∧
    (∀ kv ∈ (ingest_logs batch st).state_info,
      kv.2.event_id ≤ (ingest_logs batch st).event_counter) ∧
    (ingest_logs batch st).event_counter ≤ (ingest_logs batch st).state_info.length := by
  unfold ingest_logs
  refine foldl_pres_mem
    (fun b => IdsMono b ∧ (∀ kv ∈ b.state_info, kv.2.event_id ≤ b.event_counter) ∧
      b.event_counter ≤ b.state_info.length)
    ingestLog batch st ⟨hmono, hctr, hlen⟩ ?_
  intro b log _ ⟨h1, h2, h3⟩
  exact ingestLog_ids b log h1 h2 h3

theorem applyHyp_ids (now : ℤ) (b : St) (h : HypWip)
    (hfresh : h.state ∉ keysOf b.state_info)
    (hmono : IdsMono b) (hle : IdsLe b) :
    IdsMono (applyHyp now b h) ∧ IdsLe (applyHyp now b h) ∧
    keysOf (applyHyp now b h).state_info = keysOf b.state_info ++ [h.state] := by
  have happ : (applyHyp now b h).state_info = b.state_info ++
      [(h.state, { origin := "hypothetical", evidence := .hyp h.reason h.mechanism,
                   event_id := b.state_info.length + 1, time := now })] :=
    dinsert_not_mem _ h.state _ hfresh
  refine ⟨?_, ?_, ?_⟩
  · show List.Pairwise _ _
    rw [happ, List.pairwise_append]
    refine ⟨hmono, List.pairwise_singleton _ _, ?_⟩
    intro x hx y hy
    rw [List.mem_singleton.mp hy]
    exact le_trans (hle x hx) (Nat.le_succ _)
  · intro kv hkv
    rw [happ] at hkv ⊢
    rw [List.length_append, List.length_singleton]
    rcases List.mem_append.mp hkv with hm | hm
    · exact le_trans (hle kv hm) (Nat.le_succ _)
    · rw [List.mem_singleton.mp hm]
  · rw [happ]
    unfold keysOf
    rw [List.map_append]
    rfl

theorem hypFoldl_ids (now : ℤ) (base : St) :
    ∀ (l : List HypWip) (acc : St) (done : List FactId),
    IdsMono acc → IdsLe acc →
    keysOf acc.state_info = keysOf base.state_info ++ done →
    (∀ h ∈ l, h.state ∉ keysOf base.state_info) →
    (l.map HypWip.state).Nodup →
    (∀ h ∈ l, h.state ∉ done) →
    IdsMono (l.foldl (applyHyp now) acc) := by
  intro l
  induction l with
  | nil => intro acc done hmono _ _ _ _ _; exact hmono
  | cons h rest ih =>
    intro acc done hmono hle hkeys hfresh hnd hdone
    have hfr : h.state ∉ keysOf acc.state_info := by
      rw [hkeys]
      intro hc
      rcases List.mem_append.mp hc with hm | hm
      · exact hfresh h (List.mem_cons_self h rest) hm
      · exact hdone h (List.mem_cons_self h rest) hm
    obtain ⟨h1, h2, h3⟩ := applyHyp_ids now acc h hfr hmono hle
    rw [List.map_cons, List.nodup_cons] at hnd
    refine ih (applyHyp now acc h) (done ++ [h.state]) h1 h2 ?_ ?_ hnd.2 ?_
    · rw [h3, hkeys, List.append_assoc]
    · exact fun h' hh' => hfresh h' (List.mem_cons_of_mem h hh')
    · intro h' hh' hc
      rcases List.mem_append.mp hc with hm | hm
      · exact hdone h' (List.mem_cons_of_mem h hh') hm
      · have he : h'.state = h.state := List.mem_singleton.mp hm
        exact hnd.1 (he ▸ List.mem_map_of_mem HypWip.state hh')

/-- C9 (amended): along the standard pipeline — ingestion from the empty
store, a successful inference run, then missing-step synthesis whose
hypotheses are all new facts with pairwise-distinct identifiers — event
identifiers are non-decreasing in creation (insertion) order.  Strict
monotonicity and uniqueness fail: `C9_counterexample` exhibits one firing
giving the same `event_id` to both of its postcondition facts. -/
theorem C9_ids_monotone (batch : List LogEntry) (now : ℤ) (rules : List Rule)
    (now' : ℤ) (rules' : List Rule) (st2 : St)
    (hrun : run_inference now rules (ingest_logs batch emptySt) = .ok st2)
    (hfresh : ∀ h ∈ scanGaps st2.current_states st2.state_info,
      h.state ∉ keysOf st2.state_info)
    (hnd : ((scanGaps st2.current_states st2.state_info).map HypWip.state).Nodup) :
    IdsMono (infer_missing_steps now' rules' st2).1 := by
  obtain ⟨hm1, hc1, hl1⟩ := ingest_logs_ids batch emptySt
    (List.Pairwise.nil) (fun kv hkv => absurd hkv (List.not_mem_nil kv)) (Nat.le_refl 0)
  obtain ⟨hwf1, -, -⟩ := ingest_logs_core batch emptySt wf_empty
  have hle1 : IdsLe (ingest_logs batch emptySt) :=
    fun kv hkv => le_trans (hc1 kv hkv) hl1
  obtain ⟨-, -, -, hids⟩ := run_inference_spec now rules _ st2 hrun hwf1
  obtain ⟨hm2, hle2⟩ := hids hm1 hle1
  unfold infer_missing_steps
  exact hypFoldl_ids now' st2 (scanGaps st2.current_states st2.state_info) st2 []
    hm2 hle2 (List.append_nil _).symm hfresh hnd (fun h _ hc => absurd hc (List.not_mem_nil _))

theorem C9_ids_monotone_witness :
    run_inference 0 [] (ingest_logs [c7Log] emptySt) = .ok (ingest_logs [c7Log] emptySt) ∧
    IdsMono (infer_missing_steps 5 [] (ingest_logs [c7Log] emptySt)).1 :=
  ⟨rfl, C9_ids_monotone [c7Log] 0 [] 5 [] (ingest_logs [c7Log] emptySt) rfl
    (by decide) (by decide)⟩

/-! ## Narrative generation: sorting and score refinement -/

theorem insertDesc_mem (a : AttackNarrative) :
    ∀ (acc : List AttackNarrative) (x : AttackNarrative),
    x ∈ insertDesc a acc → x ∈ acc ∨ x = a := by
  intro acc
  induction acc with
  | nil =>
    intro x hx
    exact Or.inr (List.mem_singleton.mp hx)
  | cons b bs ih =>
    intro x hx
    unfold insertDesc at hx
    split at hx
    · rcases List.mem_cons.mp hx with he | hm
      · exact Or.inr he
      · exact Or.inl hm
    · rcases List.mem_cons.mp hx with he | hm
      · exact Or.inl (he ▸ List.mem_cons_self b bs)
      · rcases ih x hm with h1 | h2
        · exact Or.inl (List.mem_cons_of_mem b h1)
        · exact Or.inr h2

theorem insertDesc_pairwise (a : AttackNarrative) :
    ∀ (acc : List AttackNarrative), List.Pairwise ScoreOrder acc →
    (∀ x ∈ acc, x.id < a.id) →
    List.Pairwise ScoreOrder (insertDesc a acc) := by
  intro acc
  induction acc with
  | nil =>
    intro _ _
    exact List.pairwise_singleton _ _
  | cons b bs ih =>
    intro hp hid
    rw [List.pairwise_cons] at hp
    unfold insertDesc
    split
    · next hlt =>
      rw [List.pairwise_cons]
      constructor
      · intro y hy
        rcases List.mem_cons.mp hy with he | hm
        · subst he
          exact ⟨le_of_lt hlt, fun hc => absurd (lt_of_lt_of_le hlt hc) (lt_irrefl _)⟩
        · have hyb := (hp.1 y hm).1
          have hlt2 : y.score < a.score := lt_of_le_of_lt hyb hlt
          exact ⟨le_of_lt hlt2, fun hc => absurd (lt_of_lt_of_le hlt2 hc) (lt_irrefl _)⟩
      · rw [List.pairwise_cons]
        exact ⟨hp.1, hp.2⟩
    · next hnlt =>
      rw [List.pairwise_cons]
      constructor
      · intro y hy
        rcases insertDesc_mem a bs y hy with hm | he
        · exact hp.1 y hm
        · subst he
          exact ⟨not_lt.mp hnlt, fun _ => hid b (List.mem_cons_self b bs)⟩
      · exact ih hp.2 (fun x hx => hid x (List.mem_cons_of_mem b hx))

theorem sortFoldl_pairwise :
    ∀ (l acc : List AttackNarrative),
    List.Pairwise (fun x y => x.id < y.id) l →
    List.Pairwise ScoreOrder acc →
    (∀ x ∈ acc, ∀ y ∈ l, x.id < y.id) →
    List.Pairwise ScoreOrder (l.foldl (fun acc a => insertDesc a acc) acc) := by
  intro l
  induction l with
  | nil => intro acc _ hacc _; exact hacc
  | cons a t ih =>
    intro acc hl hacc hcross
    rw [List.pairwise_cons] at hl
    refine ih _ hl.2 (insertDesc_pairwise a acc hacc
      (fun x hx => hcross x hx a (List.mem_cons_self a t))) ?_
    intro x hx y hy
    rcases insertDesc_mem a acc x hx with hm | he
    · exact hcross x hm y (List.mem_cons_of_mem a hy)
    · subst he
      exact hl.1 y hy

theorem sortFoldl_mem :
    ∀ (l acc : List AttackNarrative) (x : AttackNarrative),
    x ∈ l.foldl (fun acc a => insertDesc a acc) acc → x ∈ acc ∨ x ∈ l := by
  intro l
  induction l with
  | nil => intro acc x hx; exact Or.inl hx
  | cons a t ih =>
    intro acc x hx
    rcases ih _ x hx with hm | hm
    · rcases insertDesc_mem a acc x hm with h1 | h2
      · exact Or.inl h1
      · exact Or.inr (h2 ▸ List.mem_cons_self a t)
    · exact Or.inr (List.mem_cons_of_mem a hm)

theorem sortDesc_pairwise (l : List AttackNarrative)
    (hl : List.Pairwise (fun x y => x.id < y.id) l) :
    List.Pairwise ScoreOrder (sortDesc l) :=
  sortFoldl_pairwise l [] hl List.Pairwise.nil
    (fun x hx => absurd hx (List.not_mem_nil x))

theorem sortDesc_mem (l : List AttackNarrative) (x : AttackNarrative)
    (hx : x ∈ sortDesc l) : x ∈ l := by
  rcases sortFoldl_mem l [] x hx with hm | hm
  · exact absurd hm (List.not_mem_nil x)
  · exact hm

theorem sum_lookup_eq (conf : List (FactId × ℝ)) (f : List (FactId × ℝ))
    (hf : ∀ kv ∈ f, conf.lookup kv.1 = some kv.2)
    (ks : List FactId) (hperm : ks.Perm (keysOf f)) :
    (ks.map (fun k => (conf.lookup k).getD 0)).sum = (f.map (·.2)).sum ∧
    ks.length = f.length := by
  have h1 : (keysOf f).map (fun k => (conf.lookup k).getD 0) = f.map (·.2) := by
    unfold keysOf
    rw [List.map_map]
    apply List.map_congr_left
    intro kv hkv
    show (conf.lookup kv.1).getD 0 = kv.2
    rw [hf kv hkv]
    rfl
  constructor
  · rw [(hperm.map (fun k => (conf.lookup k).getD 0)).sum_eq, h1]
  · rw [hperm.length_eq]
    exact List.length_map f Prod.fst

theorem filterMap_lookup (conf : List (FactId × ℝ)) :
    ∀ (ks : List FactId), (∀ s ∈ ks, (conf.lookup s).isSome = true) →
    (ks.filterMap (fun s => (conf.lookup s).map (fun c => (s, c)))).map Prod.fst = ks ∧
    ∀ kv ∈ ks.filterMap (fun s => (conf.lookup s).map (fun c => (s, c))),
      conf.lookup kv.1 = some kv.2 := by
  intro ks
  induction ks with
  | nil => intro _; exact ⟨rfl, fun kv hkv => absurd hkv (List.not_mem_nil kv)⟩
  | cons s t ih =>
    intro hks
    obtain ⟨c, hc⟩ := Option.isSome_iff_exists.mp (hks s (List.mem_cons_self s t))
    obtain ⟨ih1, ih2⟩ := ih (fun s' hs' => hks s' (List.mem_cons_of_mem s hs'))
    have hstep : (s :: t).filterMap (fun s => (conf.lookup s).map (fun c => (s, c)))
        = (s, c) :: t.filterMap (fun s => (conf.lookup s).map (fun c => (s, c))) := by
      rw [List.filterMap_cons, hc]
      rfl
    rw [hstep]
    constructor
    · rw [List.map_cons, ih1]
    · intro kv hkv
      rcases List.mem_cons.mp hkv with he | hm
      · rw [he]
        exact hc
      · exact ih2 kv hm

theorem wf_key_conf (st : St) (hwf : WF st) (k : FactId)
    (hk : k ∈ keysOf st.state_info) : (st.state_confidence.lookup k).isSome = true := by
  obtain ⟨kv, hkv, rfl⟩ := List.mem_map.mp hk
  exact hwf.2.2.2.2.1 kv.1 (hwf.2.2.1 kv hkv)

theorem wf_conf_key (st : St) (hwf : WF st) (k : FactId)
    (hk : k ∈ keysOf st.state_confidence) : k ∈ keysOf st.state_info := by
  obtain ⟨kv, hkv, rfl⟩ := List.mem_map.mp hk
  exact (lookup_isSome_iff _ _).mp (hwf.2.2.2.2.2 kv hkv)

theorem wf_conf_of_mem (st : St) (hwf : WF st) (kv : FactId × ℝ)
    (hkv : kv ∈ st.state_confidence) : st.state_confidence.lookup kv.1 = some kv.2 :=
  lookup_of_mem_nodup hwf.2.1 hkv

theorem score_spec (st : St) (nid : ℕ) (ra : List AppliedRule) (ks : List FactId)
    (f : List (FactId × ℝ)) (expl : String)
    (hobs : 1 ≤ (st.state_info.filter (fun kv => kv.2.origin == "log")).length)
    (hsum : (ks.map (fun k => (st.state_confidence.lookup k).getD 0)).sum
      = (f.map (·.2)).sum)
    (hlen : ks.length = f.length)
    (hne : ks ≠ []) :
    (mkNarrative st.state_info nid ra ks f expl).score
      = specScore st (mkNarrative st.state_info nid ra ks f expl) := by
  unfold mkNarrative specScore calculate_score
  dsimp only
  rw [if_neg (fun hc => hne (List.isEmpty_iff.mp hc))]
  rw [← hsum, ← hlen, Nat.max_eq_left hobs]
  ring

theorem direct_states_key (st : St) (kv : FactId × FactInfo) (x : FactId)
    (h : (if kv.2.origin == "log" then some kv.1
      else if kv.2.origin == "inferred" then
        match kv.2.evidence with
        | .derived rn _ _ _ _ _ =>
          if !(rn == "") && decide ((0.3 : ℝ) < (st.state_confidence.lookup kv.1).getD 0) then
            some kv.1
          else none
        | _ => none
      else none) = some x) : x = kv.1 := by
  split at h
  · injection h with h
    exact h.symm
  · split at h
    · cases hev : kv.2.evidence with
      | logs ls =>
        rw [hev] at h
        cases h
      | derived rn tg v ab dec neg =>
        rw [hev] at h
        dsimp only at h
        split at h
        · injection h with h
          exact h.symm
        · cases h
      | hyp r m =>
        rw [hev] at h
        cases h
    · cases h

/-- C8: on every well-formed store holding at least one observed fact, each
narrative returned by `generate_narrative_variants` with a non-empty state
set scores exactly the specification formula
`0.4·meanConfidence + 0.3·coverage + 0.2·parsimony + 0.1·hypotheticalPenalty`
(`specScore`); the returned list is sorted by descending score with ties
kept in catalogue insertion order (`ScoreOrder`), and its length is at most
`max_variants`. -/
theorem C8_narrative_variants (st : St) (rules : List Rule) (max_variants : ℕ)
    (hwf : WF st)
    (hobs : 1 ≤ (st.state_info.filter (fun kv => kv.2.origin == "log")).length) :
    (∀ n ∈ generate_narrative_variants st rules max_variants,
      n.states ≠ [] → n.score = specScore st n) ∧
    List.Pairwise ScoreOrder (generate_narrative_variants st rules max_variants) ∧
    (generate_narrative_variants st rules max_variants).length ≤ max_variants := by
  unfold generate_narrative_variants
  dsimp only
  refine ⟨?_, ?_, ?_⟩
  · intro n hn hne
    have hcat := sortDesc_mem _ n (List.take_subset _ _ hn)
    simp only [List.mem_cons, List.not_mem_nil, or_false] at hcat
    rcases hcat with rfl | rfl | rfl | rfl | rfl
    · have hperm1 : (st.state_info.map (·.1)).Perm (keysOf st.state_confidence) := by
        refine (List.perm_ext_iff_of_nodup hwf.1 hwf.2.1).mpr ?_
        intro k
        constructor
        · intro hk
          exact (lookup_isSome_iff _ _).mp (wf_key_conf st hwf k hk)
        · intro hk
          exact wf_conf_key st hwf k hk
      obtain ⟨hs, hl⟩ := sum_lookup_eq st.state_confidence st.state_confidence
        (wf_conf_of_mem st hwf) (st.state_info.map (·.1)) hperm1
      exact score_spec st _ _ _ _ _ hobs hs hl hne
    · have hperm2 :
          ((st.state_info.filter (fun kv => !(kv.2.origin == "hypothetical"))).map
            (·.1)).Perm
          (keysOf (st.state_confidence.filter (fun kv =>
            ((st.state_info.filter (fun kv =>
              !(kv.2.origin == "hypothetical"))).map (·.1)).contains kv.1))) := by
        refine (List.perm_ext_iff_of_nodup
          (hwf.1.sublist ((List.filter_sublist _).map _))
          (hwf.2.1.sublist ((List.filter_sublist _).map _)) ).mpr ?_
        intro k
        constructor
        · intro hk
          have hki : k ∈ keysOf st.state_info :=
            ((List.filter_sublist _).map _).mem hk
          obtain ⟨c, hc⟩ := Option.isSome_iff_exists.mp (wf_key_conf st hwf k hki)
          refine List.mem_map.mpr ⟨(k, c), List.mem_filter.mpr ⟨lookup_mem hc, ?_⟩, rfl⟩
          exact (contains_iff_mem _ _).mpr hk
        · intro hk
          obtain ⟨kv, hkv, rfl⟩ := List.mem_map.mp hk
          exact (contains_iff_mem _ _).mp (List.mem_filter.mp hkv).2
      obtain ⟨hs, hl⟩ := sum_lookup_eq st.state_confidence _
        (fun kv hkv => wf_conf_of_mem st hwf kv (List.mem_of_mem_filter hkv))
        ((st.state_info.filter (fun kv => !(kv.2.origin == "hypothetical"))).map (·.1))
        hperm2
      exact score_spec st _ _ _ _ _ hobs hs hl hne
    · have hperm3 :
          ((st.state_confidence.filter (fun kv => decide ((0.5 : ℝ) < kv.2))).map
            (·.1)).Perm
          (keysOf (st.state_confidence.filter (fun kv => decide ((0.5 : ℝ) < kv.2)))) := by
        unfold keysOf
        exact List.Perm.refl _
      obtain ⟨hs, hl⟩ := sum_lookup_eq st.state_confidence _
        (fun kv hkv => wf_conf_of_mem st hwf kv (List.mem_of_mem_filter hkv))
        ((st.state_confidence.filter (fun kv => decide ((0.5 : ℝ) < kv.2))).map (·.1))
        hperm3
      exact score_spec st _ _ _ _ _ hobs hs hl hne
    · have hks : ∀ s ∈ st.state_info.filterMap (fun kv =>
          if kv.2.origin == "log" then some kv.1
          else if kv.2.origin == "inferred" then
            match kv.2.evidence with
            | .derived rn _ _ _ _ _ =>
              if !(rn == "") &&
                  decide ((0.3 : ℝ) < (st.state_confidence.lookup kv.1).getD 0) then
                some kv.1
              else none
            | _ => none
          else none),
          (st.state_confidence.lookup s).isSome = true := by
        intro s hs
        obtain ⟨kv, hkv, he⟩ := List.mem_filterMap.mp hs
        have hk := direct_states_key st kv s he
        subst hk
        exact wf_key_conf st hwf kv.1 (List.mem_map_of_mem Prod.fst hkv)
      obtain ⟨hmap, hf⟩ := filterMap_lookup st.state_confidence _ hks
      obtain ⟨hs, hl⟩ := sum_lookup_eq st.state_confidence _ hf _
        (by unfold keysOf; rw [hmap])
      exact score_spec st _ _ _ _ _ hobs hs hl hne
    · have hks : ∀ s ∈ (st.state_info.filter (fun kv => kv.2.origin == "log")).map (·.1),
          (st.state_confidence.lookup s).isSome = true := by
        intro s hs
        exact wf_key_conf st hwf s (((List.filter_sublist _).map _).mem hs)
      obtain ⟨hmap, hf⟩ := filterMap_lookup st.state_confidence _ hks
      obtain ⟨hs, hl⟩ := sum_lookup_eq st.state_confidence _ hf _
        (by unfold keysOf; rw [hmap])
      exact score_spec st _ _ _ _ _ hobs hs hl hne
  · refine List.Pairwise.sublist (List.take_sublist _ _) (sortDesc_pairwise _ ?_)
    refine List.Pairwise.cons ?_ (List.Pairwise.cons ?_ (List.Pairwise.cons ?_
      (List.Pairwise.cons ?_ (List.pairwise_singleton _ _))))
    all_goals
      intro y hy
      simp only [List.mem_cons, List.not_mem_nil, or_false] at hy
    · rcases hy with rfl | rfl | rfl | rfl
      · exact (by decide : (1 : ℕ) < 2)
      · exact (by decide : (1 : ℕ) < 3)
      · exact (by decide : (1 : ℕ) < 4)
      · exact (by decide : (1 : ℕ) < 5)
    · rcases hy with rfl | rfl | rfl
      · exact (by decide : (2 : ℕ) < 3)
      · exact (by decide : (2 : ℕ) < 4)
      · exact (by decide : (2 : ℕ) < 5)
    · rcases hy with rfl | rfl
      · exact (by decide : (3 : ℕ) < 4)
      · exact (by decide : (3 : ℕ) < 5)
    · rcases hy with rfl
      exact (by decide : (4 : ℕ) < 5)
  · exact List.length_take_le _ _

theorem C8_narrative_variants_witness :
    WF c9St ∧
    1 ≤ (c9St.state_info.filter (fun kv => kv.2.origin == "log")).length ∧
    ((∀ n ∈ generate_narrative_variants c9St [] 5,
        n.states ≠ [] → n.score = specScore c9St n) ∧
      List.Pairwise ScoreOrder (generate_narrative_variants c9St [] 5) ∧
      (generate_narrative_variants c9St [] 5).length ≤ 5) :=
  ⟨wf_c9St, by decide, C8_narrative_variants c9St [] 5 wf_c9St (by decide)⟩
